import Mathlib

/-!
Verification of `boost::math::big_whole` (include/boost/math/big_whole_core.hpp),
an arbitrary-length whole-number value stored as a dynamically sized sequence of
fixed-width unsigned words (least significant word first), possibly absent
(a null buffer represents zero).

The embedding fixes the platform parameters of the source:
`word_type = unsigned int` with 32 value bits, and `uintmax_t` with 64 value
bits (so the `digits > limits_type::digits` branches of the source are taken).
Words are modelled as `Nat`; the well-formedness predicate `WF` states that
every stored word fits in the word width, which is enforced by the C++ types.
-/

/-- Number of value bits of `word_type` (`std::numeric_limits<unsigned int>::digits`). -/
def wordDigits : Nat := 32

/-- Number of value bits of `uintmax_t`. -/
def uintmaxDigits : Nat := 64

/-- Bitwise complement on a `word_type` value (`~m` at width `wordDigits`). -/
def wordNot (m : Nat) : Nat := (2 ^ wordDigits - 1) ^^^ m

/-- The state of a `big_whole` object: the `x_` member, a possibly-null owned
valarray of words, least significant word first. -/
structure big_whole where
  x_ : Option (List Nat)
deriving DecidableEq, Repr

/-- The word sequence a `big_whole` holds: a null buffer reads as no words. -/
def valWords (w : big_whole) : List Nat :=
  match w.x_ with
  | Option.none => []
  | Option.some v => v

/-- Well-formedness: every stored word fits in `word_type` (guaranteed by the
C++ type `unsigned int`, which `Nat` does not enforce by itself). -/
def WF (w : big_whole) : Prop := ∀ x ∈ valWords w, x < 2 ^ wordDigits

instance WF.decidable (w : big_whole) : Decidable (WF w) :=
  inferInstanceAs (Decidable (∀ x ∈ valWords w, x < 2 ^ wordDigits))

/-- `big_whole::words_for_bits`. -/
def words_for_bits (bits : Nat) : Nat :=
  bits / wordDigits + (if bits % wordDigits ≠ 0 then 1 else 0)

/-- The loop of `big_whole::uintmax_to_va` (the `digits > limits_type::digits`
branch): peel `word_type`-sized chunks off `v` while `v` is non-zero, at most
`words_for_bits uintmaxDigits` of them; the result is the used prefix. -/
def uintmax_to_va_loop (v : Nat) : Nat → List Nat
  | 0 => []
  | fuel + 1 =>
    if v = 0 then []
    else v % 2 ^ wordDigits :: uintmax_to_va_loop (v / 2 ^ wordDigits) fuel

/-- `big_whole::uintmax_to_va`. -/
def uintmax_to_va (v : Nat) : List Nat :=
  uintmax_to_va_loop v (words_for_bits uintmaxDigits)

/-- One iteration of the `bit_vector_to_va` loop: if `b[i]` is true, OR the
bit `i % W` into word `i / W` of the scratch array. -/
def bv_step (b : List Bool) (temp : List Nat) (i : Nat) : List Nat :=
  if b.getD i false then
    temp.set (i / wordDigits)
      ((temp.getD (i / wordDigits) 0) ||| (1 <<< (i % wordDigits)))
  else temp

/-- `big_whole::bit_vector_to_va`: word `i / W` gets bit `i % W` set wherever
`b[i]` is true; the result has `words_for_bits (size b)` words. -/
def bit_vector_to_va (b : List Bool) : List Nat :=
  if b.length = 0 then []
  else
    (List.range b.length).foldl (bv_step b)
      (List.replicate (words_for_bits b.length) 0)

/-- `valarray::max()` for `Nat` elements (call sites guard against emptiness). -/
def va_max (l : List Nat) : Nat := l.foldl Nat.max 0

/-- `big_whole::bit_indices_to_va`: build the boolean mask of size
`max(indices)+1` with the given positions set, then convert it. -/
def bit_indices_to_va (i : List Nat) : List Nat :=
  if i.length = 0 then bit_vector_to_va []
  else bit_vector_to_va ((List.range (va_max i + 1)).map (fun j => decide (j ∈ i)))

/-- The default constructor `big_whole()`: null buffer. -/
def big_whole.mk0 : big_whole := { x_ := Option.none }

/-- The converting constructor `big_whole(uintmax_t)`. -/
def big_whole.ofUintmax (v : Nat) : big_whole := ⟨Option.some (uintmax_to_va v)⟩

/-- The converting constructor `big_whole(valarray<bool> const &)`. -/
def big_whole.ofMask (b : List Bool) : big_whole := ⟨Option.some (bit_vector_to_va b)⟩

/-- The converting constructor `big_whole(valarray<size_t> const &)`; also the
state produced by `reconfigure(index_type)` (which builds it and swaps). -/
def big_whole.ofIndices (i : List Nat) : big_whole := ⟨Option.some (bit_indices_to_va i)⟩

/-- The copy constructor: a deep copy of the word buffer (or null). -/
def big_whole.copy (w : big_whole) : big_whole :=
  ⟨match w.x_ with
   | Option.none => Option.none
   | Option.some v => Option.some v⟩

/-- A downward scan shared by `wlength` and `blength`: starting from `n`,
decrement while the probe at `i - 1` fails, returning the first `i` whose
probe at `i - 1` succeeds (0 if none does). -/
def scan_high (p : Nat → Bool) : Nat → Nat
  | 0 => 0
  | i + 1 => if p i then i + 1 else scan_high p i

/-- `big_whole::wlength`: index of the highest non-zero word, plus one. -/
def wlength (v : List Nat) : Nat :=
  scan_high (fun j => decide (v.getD j 0 ≠ 0)) v.length

/-- `big_whole::blength`: index of the highest set bit of a word, plus one. -/
def blength (w : Nat) : Nat :=
  scan_high (fun j => decide (w &&& (1 <<< j) ≠ 0)) wordDigits

/-- The loop of `big_whole::count_set_bits_for_word`: add up the low bits of
successive right shifts, stopping early once the word is exhausted. -/
def count_set_bits_loop (w : Nat) : Nat → Nat
  | 0 => 0
  | fuel + 1 => if w = 0 then 0 else (w &&& 1) + count_set_bits_loop (w >>> 1) fuel

/-- `big_whole::count_set_bits_for_word`. -/
def count_set_bits_for_word (w : Nat) : Nat := count_set_bits_loop w wordDigits

/-- `big_whole::length`. -/
def big_whole.length (w : big_whole) : Nat :=
  match w.x_ with
  | Option.none => 0
  | Option.some v =>
    let o := wlength v
    if o = 0 then 0 else blength (v.getD (o - 1) 0) + (o - 1) * wordDigits

/-- `big_whole::count`. -/
def big_whole.count (w : big_whole) : Nat :=
  match w.x_ with
  | Option.none => 0
  | Option.some v => if v.length = 0 then 0 else (v.map count_set_bits_for_word).sum

/-- `big_whole::any`. -/
def big_whole.any (w : big_whole) : Bool :=
  match w.x_ with
  | Option.none => false
  | Option.some v => decide (v.length ≠ 0) && decide (va_max v ≠ 0)

/-- `big_whole::none`. -/
def big_whole.none_op (w : big_whole) : Bool := !w.any

/-- `big_whole::test`. -/
def big_whole.test (w : big_whole) (i : Nat) : Bool :=
  match w.x_ with
  | Option.none => false
  | Option.some v =>
    if v.length > i / wordDigits then
      decide ((v.getD (i / wordDigits) 0) &&& (1 <<< (i % wordDigits)) ≠ 0)
    else false

/-- `big_whole::to_uintmax` (the `digits > limits_type::digits` branch):
fold the words from most significant down, shifting the 64-bit accumulator. -/
def big_whole.to_uintmax (w : big_whole) : Nat :=
  match w.x_ with
  | Option.none => 0
  | Option.some v =>
    v.reverse.foldl (fun temp wd => ((temp <<< wordDigits) % 2 ^ uintmaxDigits) ||| wd) 0

/-- `big_whole::to_bit_indices`: ascending indices of the set bits, scanning
word `i`, bit `j`, recording `i * W + j`. -/
def big_whole.to_bit_indices (w : big_whole) : List Nat :=
  match w.x_ with
  | Option.none => []
  | Option.some v =>
    (List.range (v.length * wordDigits)).filter
      (fun jj => decide ((1 <<< (jj % wordDigits)) &&& (v.getD (jj / wordDigits) 0) ≠ 0))

/-- `big_whole::to_bit_vector`: the mask of size `max(indices)+1` with the set
bit indices marked (empty when there are no set bits). -/
def big_whole.to_bit_vector (w : big_whole) : List Bool :=
  let indices := w.to_bit_indices
  if indices.length = 0 then []
  else (List.range (va_max indices + 1)).map (fun j => decide (j ∈ indices))

/-- `big_whole::bits_assign`: swap the endpoints if needed, then rebuild from
the receiver's indices below `from`, the source's indices at most `to - from`
shifted up by `from`, and the receiver's indices above `to`. -/
def big_whole.bits_assign (w : big_whole) (a b : Nat) (values : big_whole) : big_whole :=
  let f := if a > b then b else a
  let t := if a > b then a else b
  let t_ids := w.to_bit_indices
  let v_ids := values.to_bit_indices
  let pre_t_ids := t_ids.filter (fun x => decide (x < f))
  let new_v_ids := (v_ids.filter (fun x => decide (x ≤ t - f))).map (fun x => x + f)
  let post_t_ids := t_ids.filter (fun x => decide (x > t))
  big_whole.ofIndices (pre_t_ids ++ new_v_ids ++ post_t_ids)

/-- The number of elements of the scratch array `new_t_ids` that
`bits_assign` builds (`pre_s + new_s + post_s`). -/
def bits_assign_new_size (w : big_whole) (a b : Nat) (values : big_whole) : Nat :=
  let f := if a > b then b else a
  let t := if a > b then a else b
  let t_ids := w.to_bit_indices
  let v_ids := values.to_bit_indices
  (t_ids.filter (fun x => decide (x < f))).length
    + (v_ids.filter (fun x => decide (x ≤ t - f))).length
    + (t_ids.filter (fun x => decide (x > t))).length

/-- The element subscripts `bits_assign` applies to `new_t_ids`: the
unconditional `&new_t_ids[0]`, then one write per copied element (offsets
`0 .. size-1` from that element). -/
def bits_assign_subscripts (w : big_whole) (a b : Nat) (values : big_whole) : List Nat :=
  0 :: List.range (bits_assign_new_size w a b values)

/-- All subscripts applied to `new_t_ids` are in its domain (an out-of-domain
`valarray` element access is undefined behaviour). -/
def bits_assign_subscripts_ok (w : big_whole) (a b : Nat) (values : big_whole) : Prop :=
  ∀ k ∈ bits_assign_subscripts w a b values, k < bits_assign_new_size w a b values

/-- The `bit_operation` selector of `big_whole::bit_change`. -/
inductive bit_operation where
  | reset_bit : bit_operation
  | set_bit : bit_operation
  | flip_bit : bit_operation
deriving DecidableEq, Repr

/-- One `switch (op)` block of `bit_change`: modify word `idx` by mask `m`
(the reset branch is guarded by `idx < v_size`, matching the source). -/
def writeWord (v : List Nat) (idx : Nat) (op : bit_operation) (m : Nat) (vs : Nat) : List Nat :=
  match op with
  | bit_operation.flip_bit => v.set idx ((v.getD idx 0) ^^^ m)
  | bit_operation.set_bit => v.set idx ((v.getD idx 0) ||| m)
  | bit_operation.reset_bit =>
    if idx < vs then v.set idx ((v.getD idx 0) &&& wordNot m) else v

/-- The value written to each whole interior word of a range `bit_change`. -/
def fillWord (op : bit_operation) (wv : Nat) : Nat :=
  match op with
  | bit_operation.flip_bit => wv ^^^ (2 ^ wordDigits - 1)
  | bit_operation.set_bit => 2 ^ wordDigits - 1
  | bit_operation.reset_bit => 0

/-- The middle-slice assignment of the range `bit_change`: rewrite the whole
words with indices in `[start, stop)` (a no-op unless `stop > start`). -/
def writeMiddle (v : List Nat) (start stop : Nat) (op : bit_operation) : List Nat :=
  if stop > start then
    (List.range (stop - start)).foldl
      (fun acc k => acc.set (start + k) (fillWord op (acc.getD (start + k) 0)))
      v
  else v

/-- The growth step of `bit_change`: when the top affected word index lies
beyond the buffer and the operation is not a reset, reallocate to `ti + 1`
zero words and copy the old words into the low slice. -/
def bcGrow (v0 : List Nat) (ti : Nat) (op : bit_operation) : List Nat :=
  if ti ≥ v0.length ∧ op ≠ bit_operation.reset_bit
  then v0 ++ List.replicate (ti + 1 - v0.length) 0 else v0

/-- The word-surgery phase of the range `bit_change` on the (possibly grown)
buffer: one masked write when the endpoints share a word, otherwise a low
boundary write, the whole-word middle slice, and a high boundary write. -/
def bcWords (v0 : List Nat) (f t : Nat) (op : bit_operation) : List Nat :=
  if f / wordDigits = t / wordDigits then
    writeWord (bcGrow v0 (t / wordDigits) op) (f / wordDigits) op
      ((wordNot ((1 <<< (f % wordDigits)) - 1))
        &&& ((1 <<< (t % wordDigits)) ||| ((1 <<< (t % wordDigits)) - 1)))
      (bcGrow v0 (t / wordDigits) op).length
  else
    writeWord
      (writeMiddle
        (writeWord (bcGrow v0 (t / wordDigits) op) (f / wordDigits) op
          (wordNot ((1 <<< (f % wordDigits)) - 1))
          (bcGrow v0 (t / wordDigits) op).length)
        (f / wordDigits + 1)
        (min (bcGrow v0 (t / wordDigits) op).length (t / wordDigits)) op)
      (t / wordDigits) op
      ((1 <<< (t % wordDigits)) ||| ((1 <<< (t % wordDigits)) - 1))
      (bcGrow v0 (t / wordDigits) op).length

/-- `big_whole::bit_change(from, to, op)` — the range form used by
`set(from,to)`, `reset(from,to)` and `flip(from,to)`; the null buffer is
retained only when a reset touches it (no growth, all writes guarded). -/
def big_whole.bit_change (w : big_whole) (a b : Nat) (op : bit_operation) : big_whole :=
  if w.x_.isNone ∧ op = bit_operation.reset_bit then ⟨Option.none⟩
  else ⟨Option.some (bcWords (valWords w)
    (if a > b then b else a) (if a > b then a else b) op)⟩

/-- The word-surgery phase of the single-bit `bit_change`. -/
def bc1Words (v0 : List Nat) (i : Nat) (op : bit_operation) : List Nat :=
  writeWord (bcGrow v0 (i / wordDigits) op) (i / wordDigits) op
    (1 <<< (i % wordDigits)) (bcGrow v0 (i / wordDigits) op).length

/-- `big_whole::bit_change(i, op)` — the single-bit form used by `set(i)`,
`reset(i)` and `flip(i)`. -/
def big_whole.bit_change_one (w : big_whole) (i : Nat) (op : bit_operation) : big_whole :=
  if w.x_.isNone ∧ op = bit_operation.reset_bit then ⟨Option.none⟩
  else ⟨Option.some (bc1Words (valWords w) i op)⟩

/-- `big_whole::not_self`: null the buffer when any bit is set, otherwise
install a one-word buffer holding the value one. -/
def big_whole.not_self (w : big_whole) : big_whole :=
  ⟨if w.any then Option.none else Option.some (List.replicate 1 1)⟩

/-- `operator!(big_whole const &)`: copy the operand and apply `not_self`. -/
def big_whole.op_not (w : big_whole) : big_whole := (w.copy).not_self

/-- `std::numeric_limits<big_whole>::is_specialized`. -/
def nl_is_specialized : Bool := true

/-- `std::numeric_limits<big_whole>::min()`, defined to return `type()`. -/
def nl_min : Option big_whole := Option.some (big_whole.mk Option.none)

/-- `std::numeric_limits<big_whole>::max()` — declared but never defined. -/
def nl_max : Option big_whole := Option.none

/-- `std::numeric_limits<big_whole>::epsilon()` — declared but never defined. -/
def nl_epsilon : Option big_whole := Option.none

/-- `std::numeric_limits<big_whole>::round_error()` — declared but never defined. -/
def nl_round_error : Option big_whole := Option.none

/-- `std::numeric_limits<big_whole>::is_signed`. -/
def nl_is_signed : Bool := false

/-- `std::numeric_limits<big_whole>::is_integer`. -/
def nl_is_integer : Bool := true

/-- `std::numeric_limits<big_whole>::is_exact`. -/
def nl_is_exact : Bool := true

/-- `std::numeric_limits<big_whole>::is_bounded`. -/
def nl_is_bounded : Bool := false

/-- `std::numeric_limits<big_whole>::has_infinity`. -/
def nl_has_infinity : Bool := false

/-- `std::numeric_limits<big_whole>::has_quiet_NaN`. -/
def nl_has_quiet_NaN : Bool := false

/-- The canonical-form predicate on a stored word sequence claimed by the
spec: either empty, or the last word is non-zero. -/
def canonicalVa (l : List Nat) : Prop := l = [] ∨ l.getLast? ≠ Option.some 0

/-- The bit of a word sequence at overall position `k` (word `k / W`, bit
`k % W`; absent words read as zero). -/
def testVa (v : List Nat) (k : Nat) : Bool :=
  Nat.testBit (v.getD (k / wordDigits) 0) (k % wordDigits)

/-- The mathematical value of a word sequence, least significant word first. -/
def natVal (v : List Nat) : Nat :=
  v.foldr (fun wd acc => wd + acc * 2 ^ wordDigits) 0

/-! ### Basic facts about words, bits and the shared loops -/

theorem one_shiftLeft_eq (j : Nat) : 1 <<< j = 2 ^ j := by
  rw [Nat.shiftLeft_eq, one_mul]

theorem and_shift_ne_iff (x j : Nat) : (x &&& (1 <<< j) ≠ 0) ↔ x.testBit j = true := by
  rw [one_shiftLeft_eq, Nat.and_two_pow]
  cases h : x.testBit j <;> simp [h]

theorem shift_and_ne_iff (x j : Nat) : ((1 <<< j) &&& x ≠ 0) ↔ x.testBit j = true := by
  rw [Nat.land_comm]
  exact and_shift_ne_iff x j

theorem testBit_ge_of_lt {x n j : Nat} (hx : x < 2 ^ n) (hj : n ≤ j) :
    x.testBit j = false :=
  Nat.testBit_lt_two_pow (lt_of_lt_of_le hx (Nat.pow_le_pow_right (by decide) hj))

theorem scan_high_le (p : Nat → Bool) (n : Nat) : scan_high p n ≤ n := by
  induction n with
  | zero => simp [scan_high]
  | succ m ih =>
    simp only [scan_high]
    by_cases h : p m = true
    · simp [h]
    · simp only [h]
      simp only [Bool.false_eq_true, if_false]
      exact Nat.le_succ_of_le ih

theorem scan_high_top (p : Nat → Bool) (n : Nat) (h : 0 < scan_high p n) :
    p (scan_high p n - 1) = true := by
  induction n with
  | zero => simp [scan_high] at h
  | succ m ih =>
    simp only [scan_high] at h ⊢
    by_cases hp : p m = true
    · simp [hp]
    · simp only [hp, Bool.false_eq_true, if_false] at h ⊢
      exact ih h

theorem scan_high_false (p : Nat → Bool) (n : Nat) {j : Nat}
    (h1 : scan_high p n ≤ j) (h2 : j < n) : p j = false := by
  induction n with
  | zero => exact absurd h2 (Nat.not_lt_zero j)
  | succ m ih =>
    simp only [scan_high] at h1
    by_cases hp : p m = true
    · simp only [hp, if_true] at h1
      exact absurd h2 (Nat.not_lt.mpr h1)
    · simp only [hp, Bool.false_eq_true, if_false] at h1
      rcases Nat.lt_succ_iff_lt_or_eq.mp h2 with h | h
      · exact ih h1 h
      · subst h
        exact Bool.not_eq_true _ ▸ hp

theorem scan_high_congr {p q : Nat → Bool} {n : Nat}
    (h : ∀ j, j < n → p j = q j) : scan_high p n = scan_high q n := by
  induction n with
  | zero => rfl
  | succ m ih =>
    simp only [scan_high, h m (Nat.lt_succ_self m)]
    rw [ih (fun j hj => h j (Nat.lt_succ_of_lt hj))]

theorem scan_high_shrink (p : Nat → Bool) {m n : Nat} (hmn : m ≤ n)
    (h : ∀ j, m ≤ j → j < n → p j = false) : scan_high p n = scan_high p m := by
  induction n with
  | zero => cases Nat.le_zero.mp hmn; rfl
  | succ k ih =>
    rcases Nat.lt_succ_iff_lt_or_eq.mp (Nat.lt_succ_of_le hmn) with hlt | heq
    · have hk : p k = false := h k (Nat.le_of_lt_succ hlt) (Nat.lt_succ_self k)
      simp only [scan_high, hk, Bool.false_eq_true, if_false]
      exact ih (Nat.le_of_lt_succ hlt) (fun j h1 h2 => h j h1 (Nat.lt_succ_of_lt h2))
    · rw [heq]

theorem getD_append_left {l r : List Nat} {n : Nat} (h : n < l.length) :
    (l ++ r).getD n 0 = l.getD n 0 := by
  simp [List.getD_eq_getElem?_getD, List.getElem?_append, h]

theorem getD_append_right {l r : List Nat} {n : Nat} (h : l.length ≤ n) :
    (l ++ r).getD n 0 = r.getD (n - l.length) 0 := by
  simp [List.getD_eq_getElem?_getD, List.getElem?_append, Nat.not_lt.mpr h]

theorem getD_replicate_zero (n k : Nat) : (List.replicate n 0).getD k 0 = 0 := by
  rcases Nat.lt_or_ge k n with h | h
  · simp [List.getD_eq_getElem?_getD, List.getElem?_replicate, h]
  · simp [List.getD_eq_getElem?_getD, List.getElem?_eq_none
      (by simpa using h : (List.replicate n 0).length ≤ k)]

theorem getD_eq_zero_of_ge {l : List Nat} {n : Nat} (h : l.length ≤ n) :
    l.getD n 0 = 0 := by
  simp [List.getD_eq_getElem?_getD, List.getElem?_eq_none h]

theorem getD_mem_or {l : List Nat} (n : Nat) : l.getD n 0 ∈ l ∨ l.getD n 0 = 0 := by
  rcases Nat.lt_or_ge n l.length with h | h
  · left
    rw [List.getD_eq_getElem?_getD, List.getElem?_eq_getElem h]
    exact List.getElem_mem h
  · right
    exact getD_eq_zero_of_ge h

theorem getD_set_eq {l : List Nat} {i : Nat} {a : Nat} (h : i < l.length) :
    (l.set i a).getD i 0 = a := by
  simp [List.getD_eq_getElem?_getD, List.getElem?_set, h]

theorem getD_set_ne {l : List Nat} {i j : Nat} {a : Nat} (h : i ≠ j) :
    (l.set i a).getD j 0 = l.getD j 0 := by
  simp [List.getD_eq_getElem?_getD, List.getElem?_set, h]

theorem le_va_max {l : List Nat} {x : Nat} (h : x ∈ l) : x ≤ va_max l := by
  have aux : ∀ (l : List Nat) (c : Nat), (x ∈ l → x ≤ l.foldl Nat.max c) ∧ c ≤ l.foldl Nat.max c := by
    intro l
    induction l with
    | nil => intro c; exact ⟨fun h => absurd h (List.not_mem_nil x), Nat.le_refl c⟩
    | cons a t ih =>
      intro c
      constructor
      · intro hm
        rcases List.mem_cons.mp hm with rfl | hm
        · exact le_trans (Nat.le_max_right c x) (ih (Nat.max c x)).2
        · exact ((ih (Nat.max c a)).1 hm)
      · exact le_trans (Nat.le_max_left c a) (ih (Nat.max c a)).2
  exact (aux l 0).1 h

theorem va_max_eq_zero_of_all {l : List Nat} (h : ∀ x ∈ l, x = 0) : va_max l = 0 := by
  unfold va_max
  induction l with
  | nil => rfl
  | cons a t ih =>
    have ha : a = 0 := h a (List.mem_cons_self a t)
    subst ha
    simpa using ih (fun x hx => h x (List.mem_cons_of_mem 0 hx))

theorem va_max_ne_zero {l : List Nat} (h : va_max l ≠ 0) : ∃ x ∈ l, x ≠ 0 := by
  by_contra hc
  push_neg at hc
  exact h (va_max_eq_zero_of_all hc)

/-! ### `testVa` facts -/

theorem decide_and_shift (x j : Nat) : decide (x &&& (1 <<< j) ≠ 0) = x.testBit j := by
  cases hb : x.testBit j
  · have : ¬ (x &&& (1 <<< j) ≠ 0) := fun hne => by
      have := (and_shift_ne_iff x j).mp hne
      rw [this] at hb
      cases hb
    simp [this]
  · simp [(and_shift_ne_iff x j).mpr hb]

theorem decide_shift_and (x j : Nat) : decide ((1 <<< j) &&& x ≠ 0) = x.testBit j := by
  rw [Nat.land_comm]
  exact decide_and_shift x j

theorem test_eq_testVa (w : big_whole) (i : Nat) : w.test i = testVa (valWords w) i := by
  unfold big_whole.test valWords testVa
  rcases w with ⟨x⟩
  cases x with
  | none =>
    simp only []
    rw [getD_eq_zero_of_ge (by simp)]
    simp [Nat.testBit, Nat.shiftRight_eq_div_pow]
  | some v =>
    simp only []
    by_cases h : v.length > i / wordDigits
    · simp only [h, if_true]
      exact decide_and_shift _ _
    · simp only [h, if_false]
      rw [getD_eq_zero_of_ge (Nat.le_of_not_lt (by simpa using h))]
      simp [Nat.testBit, Nat.shiftRight_eq_div_pow]

theorem testVa_append_zeros (l : List Nat) (n k : Nat) :
    testVa (l ++ List.replicate n 0) k = testVa l k := by
  unfold testVa
  rcases Nat.lt_or_ge (k / wordDigits) l.length with h | h
  · rw [getD_append_left h]
  · rw [getD_append_right h, getD_replicate_zero, getD_eq_zero_of_ge h]

theorem testVa_false_of_ge {v : List Nat} {k : Nat} (h : v.length ≤ k / wordDigits) :
    testVa v k = false := by
  unfold testVa
  rw [getD_eq_zero_of_ge h]
  simp [Nat.testBit, Nat.shiftRight_eq_div_pow]

/-! ### `wlength` and `blength` -/

theorem wlength_le (v : List Nat) : wlength v ≤ v.length := scan_high_le _ _

theorem wlength_top {v : List Nat} (h : 0 < wlength v) :
    v.getD (wlength v - 1) 0 ≠ 0 := by
  have := scan_high_top (fun j => decide (v.getD j 0 ≠ 0)) v.length h
  exact of_decide_eq_true this

theorem wlength_zero_above {v : List Nat} {k : Nat} (h : wlength v ≤ k) :
    v.getD k 0 = 0 := by
  rcases Nat.lt_or_ge k v.length with hk | hk
  · have := scan_high_false (fun j => decide (v.getD j 0 ≠ 0)) v.length h hk
    simpa using this
  · exact getD_eq_zero_of_ge hk

theorem blength_le (w : Nat) : blength w ≤ wordDigits := scan_high_le _ _

theorem blength_top {w : Nat} (h : 0 < blength w) :
    w.testBit (blength w - 1) = true := by
  have h2 : decide (w &&& (1 <<< (blength w - 1)) ≠ 0) = true :=
    scan_high_top (fun j => decide (w &&& (1 <<< j) ≠ 0)) wordDigits h
  rw [decide_and_shift] at h2
  exact h2

theorem blength_above {w : Nat} (hw : w < 2 ^ wordDigits) {j : Nat}
    (h : blength w ≤ j) : w.testBit j = false := by
  rcases Nat.lt_or_ge j wordDigits with hj | hj
  · have h2 : decide (w &&& (1 <<< j) ≠ 0) = false :=
      scan_high_false (fun j => decide (w &&& (1 <<< j) ≠ 0)) wordDigits h hj
    rw [decide_and_shift] at h2
    exact h2
  · exact testBit_ge_of_lt hw hj

theorem blength_pos {w : Nat} (hw0 : w ≠ 0) (hw : w < 2 ^ wordDigits) :
    0 < blength w := by
  by_contra hc
  have hb : blength w = 0 := Nat.eq_zero_of_not_pos hc
  apply hw0
  apply Nat.eq_of_testBit_eq
  intro i
  rw [Nat.zero_testBit]
  exact blength_above hw (hb ▸ Nat.zero_le i)

theorem wd_div (q j : Nat) (hj : j < wordDigits) :
    (q * wordDigits + j) / wordDigits = q := by
  rw [Nat.mul_comm q wordDigits, Nat.mul_add_div (by decide), Nat.div_eq_of_lt hj,
    Nat.add_zero]

theorem wd_mod (q j : Nat) (hj : j < wordDigits) :
    (q * wordDigits + j) % wordDigits = j := by
  rw [Nat.mul_comm q wordDigits, Nat.mul_add_mod, Nat.mod_eq_of_lt hj]

theorem wd_decomp (i : Nat) : (i / wordDigits) * wordDigits + i % wordDigits = i := by
  rw [Nat.mul_comm]
  exact Nat.div_add_mod i wordDigits

theorem wd_mod_lt (i : Nat) : i % wordDigits < wordDigits := Nat.mod_lt _ (by decide)

theorem length_mk_some (v : List Nat) :
    (big_whole.mk (Option.some v)).length
      = if wlength v = 0 then 0
        else blength (v.getD (wlength v - 1) 0) + (wlength v - 1) * wordDigits := rfl

theorem any_mk_some (v : List Nat) :
    (big_whole.mk (Option.some v)).any
      = (decide (v.length ≠ 0) && decide (va_max v ≠ 0)) := rfl

theorem testVa_zero_words {v : List Nat} (h : ∀ k, v.getD k 0 = 0) (i : Nat) :
    testVa v i = false := by
  unfold testVa
  rw [h, Nat.zero_testBit]

/-- The `length`/`any`/`test` characterisation of a well-formed value: `length`
is zero exactly on zero values, and otherwise is one more than the index of
the highest set bit. -/
theorem length_spec (w : big_whole) (hWF : WF w) :
    (w.length = 0 ↔ w.any = false) ∧
    (0 < w.length → w.test (w.length - 1) = true) ∧
    (∀ i, w.length ≤ i → w.test i = false) := by
  have hwd : wordDigits = 32 := rfl
  rcases w with ⟨x⟩
  cases x with
  | none =>
    refine ⟨by simp [big_whole.length, big_whole.any], ?_, ?_⟩
    · intro h
      simp [big_whole.length] at h
    · intro i _
      simp [big_whole.test]
  | some v =>
    have hW : ∀ y ∈ v, y < 2 ^ wordDigits := fun y hy => hWF y (by simpa [valWords] using hy)
    by_cases ho : wlength v = 0
    · have hz : ∀ k, v.getD k 0 = 0 := fun k => wlength_zero_above (ho ▸ Nat.zero_le k)
      have hall : ∀ y ∈ v, y = 0 := by
        intro y hy
        obtain ⟨n, hn, rfl⟩ := List.mem_iff_getElem.mp hy
        have := hz n
        rwa [List.getD_eq_getElem?_getD, List.getElem?_eq_getElem hn] at this
      have hmax : va_max v = 0 := va_max_eq_zero_of_all hall
      refine ⟨?_, ?_, ?_⟩
      · rw [length_mk_some, if_pos ho, any_mk_some, hmax]
        simp
      · intro h
        rw [length_mk_some, if_pos ho] at h
        exact absurd h (by omega)
      · intro i _
        rw [test_eq_testVa]
        exact testVa_zero_words hz i
    · have hopos : 0 < wlength v := Nat.pos_of_ne_zero ho
      have hole : wlength v ≤ v.length := wlength_le v
      have htop0 : v.getD (wlength v - 1) 0 ≠ 0 := wlength_top hopos
      have htopmem : v.getD (wlength v - 1) 0 ∈ v := by
        rcases getD_mem_or (l := v) (wlength v - 1) with h | h
        · exact h
        · exact absurd h htop0
      have htoplt : v.getD (wlength v - 1) 0 < 2 ^ wordDigits := hW _ htopmem
      have hblpos : 0 < blength (v.getD (wlength v - 1) 0) := blength_pos htop0 htoplt
      have hblle : blength (v.getD (wlength v - 1) 0) ≤ wordDigits := blength_le _
      refine ⟨?_, ?_, ?_⟩
      · rw [length_mk_some, if_neg ho, any_mk_some]
        constructor
        · intro h
          exact absurd h (by omega)
        · intro h
          exfalso
          rw [Bool.and_eq_false_iff] at h
          rcases h with h | h
          · have : v.length ≠ 0 := by omega
            simp [this] at h
          · have : va_max v ≠ 0 := by
              intro hc
              have hle := le_va_max htopmem
              rw [hc] at hle
              exact htop0 (Nat.le_zero.mp hle)
            simp [this] at h
      · intro _
        rw [length_mk_some, if_neg ho, test_eq_testVa]
        have harith : blength (v.getD (wlength v - 1) 0) + (wlength v - 1) * wordDigits - 1
            = (wlength v - 1) * wordDigits + (blength (v.getD (wlength v - 1) 0) - 1) := by
          simp only [wordDigits] at *
          omega
        rw [harith]
        show testVa v _ = true
        unfold testVa
        rw [wd_div _ _ (by simp only [wordDigits] at *; omega),
          wd_mod _ _ (by simp only [wordDigits] at *; omega)]
        exact blength_top hblpos
      · intro i hi
        rw [length_mk_some, if_neg ho] at hi
        rw [test_eq_testVa]
        show testVa v i = false
        rcases Nat.lt_or_ge (i / wordDigits) v.length with hwi | hwi
        · rcases Nat.lt_or_ge (i / wordDigits) (wlength v) with hwio | hwio
          · have hwieq : i / wordDigits = wlength v - 1 := by
              simp only [wordDigits] at *
              omega
            unfold testVa
            rw [hwieq]
            apply blength_above htoplt
            simp only [wordDigits] at *
            omega
          · unfold testVa
            rw [wlength_zero_above hwio, Nat.zero_testBit]
        · exact testVa_false_of_ge hwi

/-! ### Padding with zero words, and the null/empty equivalence -/

theorem valWords_mk_some (v : List Nat) : valWords (big_whole.mk (Option.some v)) = v := rfl

theorem valWords_mk_none : valWords (big_whole.mk Option.none) = [] := rfl

/-- The stored words up to the last non-zero one. -/
def trimWords (v : List Nat) : List Nat := v.take (wlength v)

theorem wd_div_add (q k : Nat) : (q * wordDigits + k) / wordDigits = q + k / wordDigits := by
  rw [Nat.mul_comm, Nat.mul_add_div (by decide)]

theorem trim_decomp (v : List Nat) :
    v = trimWords v ++ List.replicate (v.length - wlength v) 0 := by
  unfold trimWords
  conv_lhs => rw [← List.take_append_drop (wlength v) v]
  congr 1
  rw [List.eq_replicate]
  refine ⟨by rw [List.length_drop], ?_⟩
  intro b hb
  obtain ⟨n, hn, rfl⟩ := List.mem_iff_getElem.mp hb
  rw [List.getElem_drop]
  have hz : v.getD (wlength v + n) 0 = 0 := wlength_zero_above (Nat.le_add_right _ _)
  have hlt : wlength v + n < v.length := by
    rw [List.length_drop] at hn
    omega
  rwa [List.getD_eq_getElem?_getD, List.getElem?_eq_getElem hlt] at hz

theorem wlength_append_zeros (l : List Nat) (n : Nat) :
    wlength (l ++ List.replicate n 0) = wlength l := by
  unfold wlength
  rw [List.length_append, List.length_replicate]
  have h1 : scan_high (fun j => decide ((l ++ List.replicate n 0).getD j 0 ≠ 0)) (l.length + n)
      = scan_high (fun j => decide ((l ++ List.replicate n 0).getD j 0 ≠ 0)) l.length := by
    apply scan_high_shrink _ (Nat.le_add_right _ _)
    intro j hj _
    rw [getD_append_right hj, getD_replicate_zero]
    simp
  rw [h1]
  apply scan_high_congr
  intro j hj
  rw [getD_append_left hj]

theorem length_append_zeros (l : List Nat) (n : Nat) :
    (big_whole.mk (Option.some (l ++ List.replicate n 0))).length
      = (big_whole.mk (Option.some l)).length := by
  rw [length_mk_some, length_mk_some, wlength_append_zeros]
  by_cases h : wlength l = 0
  · rw [if_pos h, if_pos h]
  · rw [if_neg h, if_neg h]
    have hlt : wlength l - 1 < l.length :=
      lt_of_lt_of_le (by omega : wlength l - 1 < wlength l) (wlength_le l)
    rw [getD_append_left hlt]

theorem count_set_bits_zero : count_set_bits_for_word 0 = 0 := by decide

theorem count_mk_some (v : List Nat) :
    (big_whole.mk (Option.some v)).count = (v.map count_set_bits_for_word).sum := by
  cases v with
  | nil => rfl
  | cons a t =>
    have h : ¬ (a :: t).length = 0 := by simp
    show (if (a :: t).length = 0 then 0 else (List.map count_set_bits_for_word (a :: t)).sum)
      = (List.map count_set_bits_for_word (a :: t)).sum
    rw [if_neg h]

theorem count_append_zeros (l : List Nat) (n : Nat) :
    (big_whole.mk (Option.some (l ++ List.replicate n 0))).count
      = (big_whole.mk (Option.some l)).count := by
  rw [count_mk_some, count_mk_some, List.map_append, List.sum_append,
    List.map_replicate, count_set_bits_zero, List.sum_replicate]
  simp

theorem foldl_max_replicate_zero (c n : Nat) :
    (List.replicate n 0).foldl Nat.max c = c := by
  induction n generalizing c with
  | zero => rfl
  | succ m ih =>
    rw [List.replicate_succ]
    show (List.replicate m 0).foldl Nat.max (Nat.max c 0) = c
    rw [show Nat.max c 0 = c from Nat.max_eq_left (Nat.zero_le c)]
    exact ih c

theorem va_max_append_zeros (l : List Nat) (n : Nat) :
    va_max (l ++ List.replicate n 0) = va_max l := by
  unfold va_max
  rw [List.foldl_append]
  exact foldl_max_replicate_zero _ n

theorem any_mk_some_eq (v : List Nat) :
    (big_whole.mk (Option.some v)).any = decide (va_max v ≠ 0) := by
  cases v with
  | nil => rfl
  | cons a t =>
    rw [any_mk_some]
    have : decide ((a :: t).length ≠ 0) = true := by simp
    rw [this, Bool.true_and]

theorem any_append_zeros (l : List Nat) (n : Nat) :
    (big_whole.mk (Option.some (l ++ List.replicate n 0))).any
      = (big_whole.mk (Option.some l)).any := by
  rw [any_mk_some_eq, any_mk_some_eq, va_max_append_zeros]

theorem to_bit_indices_mk_some (v : List Nat) :
    (big_whole.mk (Option.some v)).to_bit_indices
      = (List.range (v.length * wordDigits)).filter
          (fun jj => decide ((1 <<< (jj % wordDigits)) &&& (v.getD (jj / wordDigits) 0) ≠ 0)) := rfl

theorem to_bit_indices_append_zeros (l : List Nat) (n : Nat) :
    (big_whole.mk (Option.some (l ++ List.replicate n 0))).to_bit_indices
      = (big_whole.mk (Option.some l)).to_bit_indices := by
  rw [to_bit_indices_mk_some, to_bit_indices_mk_some]
  rw [List.length_append, List.length_replicate, Nat.add_mul, List.range_add,
    List.filter_append]
  have h2 : List.filter
      (fun jj => decide ((1 <<< (jj % wordDigits))
        &&& ((l ++ List.replicate n 0).getD (jj / wordDigits) 0) ≠ 0))
      (List.map (fun x => l.length * wordDigits + x) (List.range (n * wordDigits))) = [] := by
    rw [List.filter_eq_nil]
    intro a ha
    obtain ⟨x, _, rfl⟩ := List.mem_map.mp ha
    have hdiv : (l.length * wordDigits + x) / wordDigits = l.length + x / wordDigits :=
      wd_div_add l.length x
    rw [decide_eq_true_eq, hdiv, getD_append_right (Nat.le_add_right _ _)]
    intro hcon
    rw [getD_replicate_zero, Nat.land_comm, Nat.zero_and] at hcon
    exact hcon rfl
  rw [h2, List.append_nil]
  apply List.filter_congr
  intro x hx
  have hxlt : x / wordDigits < l.length :=
    (Nat.div_lt_iff_lt_mul (by decide : (0:Nat) < wordDigits)).mpr (List.mem_range.mp hx)
  rw [getD_append_left hxlt]

theorem to_bit_vector_congr {w1 w2 : big_whole}
    (h : w1.to_bit_indices = w2.to_bit_indices) : w1.to_bit_vector = w2.to_bit_vector := by
  unfold big_whole.to_bit_vector
  rw [h]

theorem to_uintmax_fold_zero :
    ((0 <<< wordDigits) % 2 ^ uintmaxDigits) ||| 0 = 0 := by decide

theorem foldl_to_uintmax_replicate_zero (n : Nat) :
    (List.replicate n 0).foldl
      (fun temp wd => ((temp <<< wordDigits) % 2 ^ uintmaxDigits) ||| wd) 0 = 0 := by
  induction n with
  | zero => rfl
  | succ m ih =>
    rw [List.replicate_succ]
    show (List.replicate m 0).foldl _ (((0 <<< wordDigits) % 2 ^ uintmaxDigits) ||| 0) = 0
    rw [to_uintmax_fold_zero]
    exact ih

theorem to_uintmax_append_zeros (l : List Nat) (n : Nat) :
    (big_whole.mk (Option.some (l ++ List.replicate n 0))).to_uintmax
      = (big_whole.mk (Option.some l)).to_uintmax := by
  show (l ++ List.replicate n 0).reverse.foldl _ 0 = l.reverse.foldl _ 0
  rw [List.reverse_append, List.reverse_replicate, List.foldl_append,
    foldl_to_uintmax_replicate_zero]

theorem testVa_trim (v : List Nat) (k : Nat) : testVa v k = testVa (trimWords v) k := by
  conv_lhs => rw [trim_decomp v]
  exact testVa_append_zeros _ _ _

theorem length_trim (w : big_whole) :
    w.length = (big_whole.mk (Option.some (trimWords (valWords w)))).length := by
  rcases w with ⟨x⟩
  cases x with
  | none => rfl
  | some v =>
    rw [valWords_mk_some]
    conv_lhs => rw [trim_decomp v]
    exact length_append_zeros (trimWords v) _

theorem count_trim (w : big_whole) :
    w.count = (big_whole.mk (Option.some (trimWords (valWords w)))).count := by
  rcases w with ⟨x⟩
  cases x with
  | none => rfl
  | some v =>
    rw [valWords_mk_some]
    conv_lhs => rw [trim_decomp v]
    exact count_append_zeros (trimWords v) _

theorem any_trim (w : big_whole) :
    w.any = (big_whole.mk (Option.some (trimWords (valWords w)))).any := by
  rcases w with ⟨x⟩
  cases x with
  | none => rfl
  | some v =>
    rw [valWords_mk_some]
    conv_lhs => rw [trim_decomp v]
    exact any_append_zeros (trimWords v) _

theorem test_trim (w : big_whole) (i : Nat) :
    w.test i = (big_whole.mk (Option.some (trimWords (valWords w)))).test i := by
  rw [test_eq_testVa, test_eq_testVa, valWords_mk_some]
  exact testVa_trim _ i

theorem to_bit_indices_trim (w : big_whole) :
    w.to_bit_indices = (big_whole.mk (Option.some (trimWords (valWords w)))).to_bit_indices := by
  rcases w with ⟨x⟩
  cases x with
  | none => rfl
  | some v =>
    rw [valWords_mk_some]
    conv_lhs => rw [trim_decomp v]
    exact to_bit_indices_append_zeros (trimWords v) _

theorem to_uintmax_trim (w : big_whole) :
    w.to_uintmax = (big_whole.mk (Option.some (trimWords (valWords w)))).to_uintmax := by
  rcases w with ⟨x⟩
  cases x with
  | none => rfl
  | some v =>
    rw [valWords_mk_some]
    conv_lhs => rw [trim_decomp v]
    exact to_uintmax_append_zeros (trimWords v) _

/-- C1: for every value, `length` is zero iff `any` is false; a positive
`length L` means bit `L-1` is set and every bit at index `≥ L` is clear. -/
theorem claim_C1_canonical_length (w : big_whole) (hWF : WF w) :
    (w.length = 0 ↔ w.any = false) ∧
    (0 < w.length → w.test (w.length - 1) = true) ∧
    (∀ i, w.length ≤ i → w.test i = false) :=
  length_spec w hWF

theorem claim_C1_canonical_length_witness :
    ((big_whole.mk (Option.some [5, 7])).length = 0
      ↔ (big_whole.mk (Option.some [5, 7])).any = false)
    ∧ (big_whole.mk (Option.some [5, 7])).test
        ((big_whole.mk (Option.some [5, 7])).length - 1) = true
    ∧ (big_whole.mk (Option.some [5, 7])).test 64 = false :=
  ⟨(claim_C1_canonical_length (big_whole.mk (Option.some [5, 7])) (by decide)).1,
   (claim_C1_canonical_length (big_whole.mk (Option.some [5, 7])) (by decide)).2.1 (by decide),
   (claim_C1_canonical_length (big_whole.mk (Option.some [5, 7])) (by decide)).2.2 64 (by decide)⟩

/-- C6: every read operation gives the same answer on any two internal
representations that differ only in trailing all-zero words or in null
versus empty buffers (both representing zero). -/
theorem claim_C6_representation_independence (w1 w2 : big_whole)
    (h : trimWords (valWords w1) = trimWords (valWords w2)) :
    w1.length = w2.length ∧ w1.count = w2.count ∧ w1.any = w2.any ∧
    w1.none_op = w2.none_op ∧ (∀ i, w1.test i = w2.test i) ∧
    w1.to_bit_indices = w2.to_bit_indices ∧ w1.to_bit_vector = w2.to_bit_vector ∧
    w1.to_uintmax = w2.to_uintmax := by
  have hbi : w1.to_bit_indices = w2.to_bit_indices := by
    rw [to_bit_indices_trim w1, to_bit_indices_trim w2, h]
  refine ⟨?_, ?_, ?_, ?_, ?_, hbi, to_bit_vector_congr hbi, ?_⟩
  · rw [length_trim w1, length_trim w2, h]
  · rw [count_trim w1, count_trim w2, h]
  · rw [any_trim w1, any_trim w2, h]
  · show (!w1.any) = (!w2.any)
    rw [any_trim w1, any_trim w2, h]
  · intro i
    rw [test_trim w1 i, test_trim w2 i, h]
  · rw [to_uintmax_trim w1, to_uintmax_trim w2, h]

theorem claim_C6_representation_independence_witness :
    (big_whole.mk Option.none).length = (big_whole.mk (Option.some [0, 0])).length
    ∧ (big_whole.mk Option.none).test 5 = (big_whole.mk (Option.some [0, 0])).test 5
    ∧ (big_whole.mk Option.none).to_uintmax = (big_whole.mk (Option.some [0, 0])).to_uintmax :=
  ⟨(claim_C6_representation_independence (big_whole.mk Option.none)
      (big_whole.mk (Option.some [0, 0])) (by decide)).1,
   (claim_C6_representation_independence (big_whole.mk Option.none)
      (big_whole.mk (Option.some [0, 0])) (by decide)).2.2.2.2.1 5,
   (claim_C6_representation_independence (big_whole.mk Option.none)
      (big_whole.mk (Option.some [0, 0])) (by decide)).2.2.2.2.2.2.2⟩

/-! ### `to_uintmax` bit characterisation -/

theorem testVa_nil (k : Nat) : testVa [] k = false := by
  unfold testVa
  rw [getD_eq_zero_of_ge (by simp), Nat.zero_testBit]

theorem testVa_cons (wd : Nat) (rest : List Nat) (k : Nat) :
    testVa (wd :: rest) k
      = if k < wordDigits then wd.testBit k else testVa rest (k - wordDigits) := by
  by_cases h : k < wordDigits
  · rw [if_pos h]
    unfold testVa
    rw [Nat.div_eq_of_lt h, Nat.mod_eq_of_lt h, List.getD_cons_zero]
  · rw [if_neg h]
    have hk : k = (k - wordDigits) + wordDigits := by omega
    unfold testVa
    rw [hk, Nat.add_div_right _ (by decide), Nat.add_mod_right, List.getD_cons_succ]
    rw [show k - wordDigits + wordDigits - wordDigits = k - wordDigits from by omega]

theorem foldr_to_uintmax_testBit (v : List Nat) :
    ∀ i, (∀ x ∈ v, x < 2 ^ wordDigits) →
      (v.foldr (fun wd acc => ((acc <<< wordDigits) % 2 ^ uintmaxDigits) ||| wd) 0).testBit i
        = (decide (i < uintmaxDigits) && testVa v i) := by
  induction v with
  | nil =>
    intro i _
    rw [List.foldr_nil, Nat.zero_testBit, testVa_nil, Bool.and_false]
  | cons wd rest ih =>
    intro i hW
    have hwd : wd < 2 ^ wordDigits := hW wd (List.mem_cons_self _ _)
    have hrest : ∀ x ∈ rest, x < 2 ^ wordDigits := fun x hx => hW x (List.mem_cons_of_mem _ hx)
    rw [List.foldr_cons, Nat.testBit_or, Nat.testBit_mod_two_pow, Nat.testBit_shiftLeft,
      ih (i - wordDigits) hrest, testVa_cons]
    rcases Nat.lt_or_ge i wordDigits with h1 | h1
    · have h2 : i < uintmaxDigits := by
        have : wordDigits ≤ uintmaxDigits := by decide
        omega
      have hge : ¬ (i ≥ wordDigits) := Nat.not_le.mpr h1
      simp [h1, h2, hge]
    · have hwdbit : wd.testBit i = false := testBit_ge_of_lt hwd h1
      rcases Nat.lt_or_ge i uintmaxDigits with h2 | h2
      · have h3 : i - wordDigits < uintmaxDigits := by omega
        simp [h1, h2, h3, hwdbit, Nat.not_lt.mpr h1]
      · have h2f : ¬ i < uintmaxDigits := Nat.not_lt.mpr h2
        simp [h2f, hwdbit]

theorem natVal_testBit (v : List Nat) :
    ∀ i, (∀ x ∈ v, x < 2 ^ wordDigits) → (natVal v).testBit i = testVa v i := by
  induction v with
  | nil =>
    intro i _
    rw [testVa_nil]
    show Nat.testBit 0 i = false
    exact Nat.zero_testBit i
  | cons wd rest ih =>
    intro i hW
    have hwd : wd < 2 ^ wordDigits := hW wd (List.mem_cons_self _ _)
    have hrest : ∀ x ∈ rest, x < 2 ^ wordDigits := fun x hx => hW x (List.mem_cons_of_mem _ hx)
    have hnv : natVal (wd :: rest) = wd + natVal rest * 2 ^ wordDigits := rfl
    rw [hnv, testVa_cons]
    rcases Nat.lt_or_ge i wordDigits with h1 | h1
    · rw [if_pos h1]
      have hmod : (wd + natVal rest * 2 ^ wordDigits) % 2 ^ wordDigits = wd := by
        rw [Nat.add_mul_mod_self_right, Nat.mod_eq_of_lt hwd]
      have := Nat.testBit_mod_two_pow (wd + natVal rest * 2 ^ wordDigits) wordDigits i
      rw [hmod] at this
      rw [decide_eq_true h1, Bool.true_and] at this
      exact this.symm
    · rw [if_neg (Nat.not_lt.mpr h1)]
      have hdiv : (wd + natVal rest * 2 ^ wordDigits) / 2 ^ wordDigits = natVal rest := by
        rw [Nat.add_mul_div_right _ _ (by decide : (0:Nat) < 2 ^ wordDigits),
          Nat.div_eq_of_lt hwd, Nat.zero_add]
      have hsr : ((wd + natVal rest * 2 ^ wordDigits) >>> wordDigits).testBit (i - wordDigits)
          = (wd + natVal rest * 2 ^ wordDigits).testBit (wordDigits + (i - wordDigits)) :=
        Nat.testBit_shiftRight _
      rw [Nat.shiftRight_eq_div_pow, hdiv] at hsr
      rw [show wordDigits + (i - wordDigits) = i from by omega] at hsr
      rw [← hsr, ih (i - wordDigits) hrest]

theorem to_uintmax_testBit_spec (w : big_whole) (hWF : WF w) (i : Nat) :
    (w.to_uintmax).testBit i = (decide (i < uintmaxDigits) && w.test i) := by
  rcases w with ⟨x⟩
  cases x with
  | none =>
    show Nat.testBit 0 i = (decide (i < uintmaxDigits) && false)
    rw [Nat.zero_testBit, Bool.and_false]
  | some v =>
    have hW : ∀ x ∈ v, x < 2 ^ wordDigits := fun x hx => hWF x (by simpa [valWords] using hx)
    have hfold : (big_whole.mk (Option.some v)).to_uintmax
        = v.foldr (fun wd acc => ((acc <<< wordDigits) % 2 ^ uintmaxDigits) ||| wd) 0 := by
      show v.reverse.foldl _ 0 = _
      rw [List.foldl_reverse]
    rw [hfold, foldr_to_uintmax_testBit v i hW, test_eq_testVa, valWords_mk_some]

theorem to_uintmax_eq_natVal (w : big_whole) (hWF : WF w) :
    w.to_uintmax = natVal (valWords w) % 2 ^ uintmaxDigits := by
  apply Nat.eq_of_testBit_eq
  intro i
  rw [to_uintmax_testBit_spec w hWF i, Nat.testBit_mod_two_pow]
  rcases w with ⟨x⟩
  cases x with
  | none =>
    show (decide (i < uintmaxDigits) && false) = (decide (i < uintmaxDigits) && Nat.testBit 0 i)
    rw [Nat.zero_testBit]
  | some v =>
    have hW : ∀ x ∈ v, x < 2 ^ wordDigits := fun x hx => hWF x (by simpa [valWords] using hx)
    rw [test_eq_testVa, valWords_mk_some, natVal_testBit v i hW]

/-- C8: `to_uintmax` keeps exactly the low `uintmaxDigits` bits — bit `i` of
the result equals `test i` for `i` below the native width, and higher stored
bits are silently discarded (the result equals the value reduced modulo
`2 ^ uintmaxDigits`). -/
theorem claim_C8_to_uintmax_truncation (w : big_whole) (hWF : WF w) :
    (∀ i, (w.to_uintmax).testBit i = (decide (i < uintmaxDigits) && w.test i)) ∧
    w.to_uintmax = natVal (valWords w) % 2 ^ uintmaxDigits :=
  ⟨fun i => to_uintmax_testBit_spec w hWF i, to_uintmax_eq_natVal w hWF⟩

theorem claim_C8_to_uintmax_truncation_witness :
    ((big_whole.mk (Option.some [1, 2, 3])).to_uintmax).testBit 33
      = (decide (33 < uintmaxDigits) && (big_whole.mk (Option.some [1, 2, 3])).test 33)
    ∧ (big_whole.mk (Option.some [1, 2, 3])).to_uintmax
      = natVal (valWords (big_whole.mk (Option.some [1, 2, 3]))) % 2 ^ uintmaxDigits :=
  ⟨(claim_C8_to_uintmax_truncation (big_whole.mk (Option.some [1, 2, 3])) (by decide)).1 33,
   (claim_C8_to_uintmax_truncation (big_whole.mk (Option.some [1, 2, 3])) (by decide)).2⟩

/-- C9: `not_self` nulls a non-zero value and turns the zero value into one
(a single word holding 1, i.e. bit 0 set); `operator!` applies the same
transformation to a deep copy, and the copy equals the operand. -/
theorem claim_C9_logical_not (w : big_whole) :
    (w.any = true →
      w.not_self = big_whole.mk Option.none ∧ (w.not_self).any = false
        ∧ (w.not_self).to_uintmax = 0) ∧
    (w.any = false →
      w.not_self = big_whole.mk (Option.some [1]) ∧ (w.not_self).test 0 = true
        ∧ (w.not_self).length = 1 ∧ (w.not_self).to_uintmax = 1) ∧
    w.op_not = w.not_self ∧ w.copy = w := by
  have hc : w.copy = w := by
    rcases w with ⟨x⟩
    cases x <;> rfl
  refine ⟨?_, ?_, ?_, hc⟩
  · intro h
    have hns : w.not_self = big_whole.mk Option.none := by
      unfold big_whole.not_self
      rw [h]
      rfl
    rw [hns]
    exact ⟨rfl, rfl, rfl⟩
  · intro h
    have hns : w.not_self = big_whole.mk (Option.some [1]) := by
      unfold big_whole.not_self
      rw [h]
      rfl
    rw [hns]
    exact ⟨rfl, by decide, by decide, by decide⟩
  · show (w.copy).not_self = w.not_self
    rw [hc]

theorem claim_C9_logical_not_witness :
    (big_whole.mk (Option.some [3])).not_self = big_whole.mk Option.none
    ∧ (big_whole.mk Option.none).not_self = big_whole.mk (Option.some [1]) :=
  ⟨((claim_C9_logical_not (big_whole.mk (Option.some [3]))).1 (by decide)).1,
   ((claim_C9_logical_not (big_whole.mk Option.none)).2.1 (by decide)).1⟩

/-- C10 counterexample: `epsilon()` and `round_error()` are declared but never
defined in the source, so neither can return zero (or anything else). -/
theorem claim_C10_counterexample :
    ¬ (nl_epsilon.isSome = true ∧ nl_round_error.isSome = true) := by decide

/-- C10 (amended): the queryable traits are as claimed — minimum is the zero
value and the markers read unsigned/integer/exact/unbounded — but `epsilon()`
and `round_error()` are declared without a definition instead of returning
zero. -/
theorem claim_C10_numeric_traits :
    nl_is_specialized = true
    ∧ nl_min = Option.some (big_whole.mk Option.none)
    ∧ (big_whole.mk Option.none).any = false
    ∧ nl_epsilon = Option.none ∧ nl_round_error = Option.none
    ∧ nl_is_signed = false ∧ nl_is_integer = true ∧ nl_is_exact = true
    ∧ nl_is_bounded = false ∧ nl_has_infinity = false ∧ nl_has_quiet_NaN = false :=
  ⟨rfl, rfl, rfl, rfl, rfl, rfl, rfl, rfl, rfl, rfl, rfl⟩

instance bits_assign_subscripts_ok_decidable (w : big_whole) (a b : Nat) (s : big_whole) :
    Decidable (bits_assign_subscripts_ok w a b s) :=
  inferInstanceAs (Decidable (∀ k ∈ bits_assign_subscripts w a b s,
    k < bits_assign_new_size w a b s))

/-- C7: with a zero receiver and a zero source, `bits_assign` builds an empty
`new_t_ids` yet still evaluates `&new_t_ids[0]` — subscript 0 on a size-0
valarray is an out-of-domain element access; the rebuilt value itself is the
zero value, as specified. -/
theorem claim_C7_bits_assign_oob :
    ¬ bits_assign_subscripts_ok (big_whole.mk Option.none) 2 4 (big_whole.mk Option.none)
    ∧ bits_assign_new_size (big_whole.mk Option.none) 2 4 (big_whole.mk Option.none) = 0
    ∧ ((big_whole.mk Option.none).bits_assign 2 4 (big_whole.mk Option.none)).to_bit_indices
        = [] := by
  refine ⟨by decide, by decide, by decide⟩

/-! ### Characterisation of `bit_vector_to_va` -/

theorem eq_iff_wd (i k : Nat) :
    k = i ↔ (k / wordDigits = i / wordDigits ∧ k % wordDigits = i % wordDigits) := by
  constructor
  · rintro rfl
    exact ⟨rfl, rfl⟩
  · rintro ⟨h1, h2⟩
    have hk := wd_decomp k
    rw [h1, h2] at hk
    rw [← hk, wd_decomp i]

theorem bv_step_testVa (b : List Bool) (temp : List Nat) (i : Nat)
    (hi : i / wordDigits < temp.length) (k : Nat) :
    testVa (bv_step b temp i) k
      = (testVa temp k || (decide (k = i) && b.getD i false)) := by
  unfold bv_step
  by_cases hb : b.getD i false
  · rw [hb, if_pos rfl]
    by_cases hdiv : k / wordDigits = i / wordDigits
    · unfold testVa
      rw [hdiv, getD_set_eq hi, Nat.testBit_or, one_shiftLeft_eq, Nat.testBit_two_pow]
      by_cases hmod : k % wordDigits = i % wordDigits
      · rw [hmod, decide_eq_true ((eq_iff_wd i k).mpr ⟨hdiv, hmod⟩)]
        simp
      · have hne : ¬ (k = i) := fun hc => hmod ((eq_iff_wd i k).mp hc).2
        have hne2 : ¬ (i % wordDigits = k % wordDigits) := fun hc => hmod hc.symm
        simp [hne, hne2]
    · unfold testVa
      rw [getD_set_ne (fun hc => hdiv hc.symm)]
      have hne : ¬ (k = i) := fun hc => hdiv ((eq_iff_wd i k).mp hc).1
      simp [hne]
  · simp only [Bool.not_eq_true] at hb
    rw [hb]
    simp

theorem bv_step_length (b : List Bool) (temp : List Nat) (i : Nat) :
    (bv_step b temp i).length = temp.length := by
  unfold bv_step
  cases hb : b.getD i false
  · rw [if_neg (by decide : ¬ (false = true))]
  · rw [if_pos rfl, List.length_set]

theorem bv_step_bound (b : List Bool) (temp : List Nat) (i : Nat)
    (hW : ∀ x ∈ temp, x < 2 ^ wordDigits) :
    ∀ x ∈ bv_step b temp i, x < 2 ^ wordDigits := by
  unfold bv_step
  by_cases hb : b.getD i false
  · rw [hb, if_pos rfl]
    intro x hx
    rcases List.mem_or_eq_of_mem_set hx with h | h
    · exact hW x h
    · subst h
      apply Nat.or_lt_two_pow
      · rcases getD_mem_or (l := temp) (i / wordDigits) with h | h
        · exact hW _ h
        · rw [h]
          decide
      · rw [one_shiftLeft_eq]
        exact Nat.pow_lt_pow_right (by decide) (wd_mod_lt i)
  · simp only [Bool.not_eq_true] at hb
    rw [hb]
    simpa using hW

theorem fold_bv_char (b : List Bool) (is : List Nat) :
    ∀ (temp : List Nat), (∀ i ∈ is, i / wordDigits < temp.length) →
      (is.foldl (bv_step b) temp).length = temp.length
      ∧ (∀ k, testVa (is.foldl (bv_step b) temp) k
          = (testVa temp k || (decide (k ∈ is) && b.getD k false)))
      ∧ ((∀ x ∈ temp, x < 2 ^ wordDigits) →
          ∀ x ∈ is.foldl (bv_step b) temp, x < 2 ^ wordDigits) := by
  induction is with
  | nil =>
    intro temp _
    refine ⟨rfl, ?_, fun h => h⟩
    intro k
    simp
  | cons i rest ih =>
    intro temp hdom
    have hi : i / wordDigits < temp.length := hdom i (List.mem_cons_self _ _)
    have hdom2 : ∀ j ∈ rest, j / wordDigits < (bv_step b temp i).length := by
      rw [bv_step_length]
      exact fun j hj => hdom j (List.mem_cons_of_mem _ hj)
    obtain ⟨ihl, ihb, ihw⟩ := ih (bv_step b temp i) hdom2
    refine ⟨by rw [List.foldl_cons, ihl, bv_step_length], ?_, ?_⟩
    · intro k
      rw [List.foldl_cons, ihb k, bv_step_testVa b temp i hi k]
      by_cases hk : k = i
      · subst hk
        by_cases hr : k ∈ rest
        · simp [hr]
        · simp [hr, List.mem_cons]
      · by_cases hr : k ∈ rest
        · simp [hr, hk, List.mem_cons]
        · simp [hr, hk, List.mem_cons]
    · intro hW
      rw [List.foldl_cons]
      exact ihw (bv_step_bound b temp i hW)

theorem lt_words_for_bits {i bs : Nat} (h : i < bs) :
    i / wordDigits < words_for_bits bs := by
  unfold words_for_bits
  by_cases hm : bs % wordDigits ≠ 0
  · rw [if_pos hm]
    have : i / wordDigits ≤ bs / wordDigits :=
      Nat.div_le_div_right (Nat.le_of_lt h)
    omega
  · rw [if_neg hm]
    push_neg at hm
    have hdvd : wordDigits ∣ bs := Nat.dvd_of_mod_eq_zero hm
    rw [Nat.add_zero, Nat.div_lt_iff_lt_mul (by decide : (0:Nat) < wordDigits)]
    rw [Nat.div_mul_cancel hdvd]
    exact h

theorem bit_vector_to_va_length (b : List Bool) :
    (bit_vector_to_va b).length = words_for_bits b.length := by
  unfold bit_vector_to_va
  by_cases h : b.length = 0
  · rw [if_pos h, h]
    rfl
  · rw [if_neg h]
    have hdom : ∀ i ∈ List.range b.length,
        i / wordDigits < (List.replicate (words_for_bits b.length) (0:Nat)).length := by
      intro i hi
      rw [List.length_replicate]
      exact lt_words_for_bits (List.mem_range.mp hi)
    rw [(fold_bv_char b (List.range b.length) _ hdom).1, List.length_replicate]

theorem testVa_bit_vector_to_va (b : List Bool) (k : Nat) :
    testVa (bit_vector_to_va b) k = (decide (k < b.length) && b.getD k false) := by
  unfold bit_vector_to_va
  by_cases h : b.length = 0
  · rw [if_pos h, testVa_nil]
    have : ¬ (k < b.length) := by omega
    simp [this]
  · rw [if_neg h]
    have hdom : ∀ i ∈ List.range b.length,
        i / wordDigits < (List.replicate (words_for_bits b.length) (0:Nat)).length := by
      intro i hi
      rw [List.length_replicate]
      exact lt_words_for_bits (List.mem_range.mp hi)
    rw [(fold_bv_char b (List.range b.length) _ hdom).2.1 k]
    have hz : testVa (List.replicate (words_for_bits b.length) 0) k = false := by
      unfold testVa
      rw [getD_replicate_zero, Nat.zero_testBit]
    rw [hz, Bool.false_or]
    by_cases hk : k < b.length
    · simp [List.mem_range, hk]
    · simp [List.mem_range, hk]

theorem bit_vector_to_va_WF (b : List Bool) :
    ∀ x ∈ bit_vector_to_va b, x < 2 ^ wordDigits := by
  unfold bit_vector_to_va
  by_cases h : b.length = 0
  · rw [if_pos h]
    intro x hx
    cases hx
  · rw [if_neg h]
    have hdom : ∀ i ∈ List.range b.length,
        i / wordDigits < (List.replicate (words_for_bits b.length) (0:Nat)).length := by
      intro i hi
      rw [List.length_replicate]
      exact lt_words_for_bits (List.mem_range.mp hi)
    refine (fold_bv_char b (List.range b.length) _ hdom).2.2 ?_
    intro x hx
    rw [List.eq_of_mem_replicate hx]
    decide

/-! ### Tests of constructed values -/

theorem test_ofMask (b : List Bool) (i : Nat) :
    (big_whole.ofMask b).test i = (decide (i < b.length) && b.getD i false) := by
  rw [test_eq_testVa]
  show testVa (bit_vector_to_va b) i = _
  exact testVa_bit_vector_to_va b i

theorem getD_map_decide_mem (is : List Nat) (n k : Nat) :
    ((List.range n).map (fun j => decide (j ∈ is))).getD k false
      = (decide (k < n) && decide (k ∈ is)) := by
  rcases Nat.lt_or_ge k n with h | h
  · rw [List.getD_eq_getElem?_getD, List.getElem?_map, List.getElem?_range h]
    simp [h]
  · have hlen : (List.map (fun j => decide (j ∈ is)) (List.range n)).length ≤ k := by
      simpa using h
    rw [List.getD_eq_getElem?_getD, List.getElem?_eq_none hlen]
    simp [Nat.not_lt.mpr h]

theorem test_ofIndices (is : List Nat) (i : Nat) :
    (big_whole.ofIndices is).test i = decide (i ∈ is) := by
  rw [test_eq_testVa]
  show testVa (bit_indices_to_va is) i = _
  unfold bit_indices_to_va
  by_cases h : is.length = 0
  · rw [if_pos h]
    have hnil : is = [] := List.length_eq_zero.mp h
    subst hnil
    rw [testVa_bit_vector_to_va]
    simp
  · rw [if_neg h, testVa_bit_vector_to_va, List.length_map, List.length_range,
      getD_map_decide_mem]
    by_cases hm : i ∈ is
    · have hle : i ≤ va_max is := le_va_max hm
      have hlt : i < va_max is + 1 := by omega
      simp [hm, hlt]
    · simp [hm]

theorem WF_ofMask (b : List Bool) : WF (big_whole.ofMask b) := by
  intro x hx
  exact bit_vector_to_va_WF b x (by simpa [valWords, big_whole.ofMask] using hx)

theorem WF_ofIndices (is : List Nat) : WF (big_whole.ofIndices is) := by
  intro x hx
  have hx2 : x ∈ bit_indices_to_va is := by simpa [valWords, big_whole.ofIndices] using hx
  unfold bit_indices_to_va at hx2
  by_cases h : is.length = 0
  · rw [if_pos h] at hx2
    exact bit_vector_to_va_WF _ x hx2
  · rw [if_neg h] at hx2
    exact bit_vector_to_va_WF _ x hx2

instance canonicalVa_decidable (l : List Nat) : Decidable (canonicalVa l) :=
  inferInstanceAs (Decidable (l = [] ∨ l.getLast? ≠ Option.some 0))

/-- C4 counterexample: the all-false mask of size one produces the stored word
sequence `[0]`, which is neither empty nor ends in a non-zero word — the
constructor does not trim trailing all-zero words. -/
theorem claim_C4_counterexample :
    (big_whole.ofMask [false]).x_ = Option.some [0]
    ∧ ¬ canonicalVa (valWords (big_whole.ofMask [false])) := by
  exact ⟨by decide, by decide⟩

/-- C4 (amended): construction from a boolean mask `b` of size `N` sets bit
`i` exactly where `b[i]` is true for `i < N`, and the stored word sequence has
exactly `⌈N/W⌉` words; trailing all-zero words are kept, not trimmed, so the
sequence can end in a zero word (reads still observe the value as if it were
trimmed). -/
theorem claim_C4_mask_construction (b : List Bool) :
    (big_whole.ofMask b).x_ = Option.some (bit_vector_to_va b)
    ∧ (bit_vector_to_va b).length = words_for_bits b.length
    ∧ (∀ i, (big_whole.ofMask b).test i = (decide (i < b.length) && b.getD i false)) :=
  ⟨rfl, bit_vector_to_va_length b, fun i => test_ofMask b i⟩

/-! ### Membership in `to_bit_indices` and the round trips -/

theorem test_mk_some (v : List Nat) (i : Nat) :
    (big_whole.mk (Option.some v)).test i
      = if v.length > i / wordDigits then
          decide ((v.getD (i / wordDigits) 0) &&& (1 <<< (i % wordDigits)) ≠ 0)
        else false := rfl

theorem mem_to_bit_indices (w : big_whole) (i : Nat) :
    i ∈ w.to_bit_indices ↔ w.test i = true := by
  rcases w with ⟨x⟩
  cases x with
  | none =>
    show i ∈ [] ↔ false = true
    simp
  | some v =>
    rw [to_bit_indices_mk_some, test_mk_some]
    simp only [List.mem_filter, List.mem_range]
    constructor
    · rintro ⟨hrange, hbit⟩
      have hdiv : i / wordDigits < v.length :=
        (Nat.div_lt_iff_lt_mul (by decide : (0:Nat) < wordDigits)).mpr hrange
      rw [if_pos hdiv, decide_and_shift]
      rw [decide_shift_and] at hbit
      exact hbit
    · intro ht
      by_cases hdiv : v.length > i / wordDigits
      · rw [if_pos hdiv, decide_and_shift] at ht
        refine ⟨?_, ?_⟩
        · exact (Nat.div_lt_iff_lt_mul (by decide : (0:Nat) < wordDigits)).mp hdiv
        · rw [decide_shift_and]
          exact ht
      · rw [if_neg hdiv] at ht
        cases ht

theorem to_bit_indices_sorted (w : big_whole) :
    List.Pairwise (· < ·) w.to_bit_indices := by
  rcases w with ⟨x⟩
  cases x with
  | none => exact List.Pairwise.nil
  | some v =>
    rw [to_bit_indices_mk_some]
    exact List.Pairwise.sublist (List.filter_sublist _) (List.pairwise_lt_range _)

theorem to_bit_indices_eq_of_test {w1 w2 : big_whole}
    (h : ∀ i, w1.test i = w2.test i) : w1.to_bit_indices = w2.to_bit_indices := by
  have s1 := to_bit_indices_sorted w1
  have s2 := to_bit_indices_sorted w2
  have nd1 : w1.to_bit_indices.Nodup := s1.imp (fun hlt => Nat.ne_of_lt hlt)
  have nd2 : w2.to_bit_indices.Nodup := s2.imp (fun hlt => Nat.ne_of_lt hlt)
  have hperm : w1.to_bit_indices.Perm w2.to_bit_indices := by
    rw [List.perm_ext_iff_of_nodup nd1 nd2]
    intro a
    rw [mem_to_bit_indices, mem_to_bit_indices, h a]
  exact List.eq_of_perm_of_sorted hperm
    (s1.imp fun hlt => Nat.le_of_lt hlt) (s2.imp fun hlt => Nat.le_of_lt hlt)

theorem to_uintmax_eq_of_test {w1 w2 : big_whole} (h1 : WF w1) (h2 : WF w2)
    (h : ∀ i, w1.test i = w2.test i) : w1.to_uintmax = w2.to_uintmax :=
  Nat.eq_of_testBit_eq fun i => by
    rw [to_uintmax_testBit_spec w1 h1 i, to_uintmax_testBit_spec w2 h2 i, h i]

theorem to_bit_vector_eq (w : big_whole) :
    w.to_bit_vector
      = if w.to_bit_indices.length = 0 then []
        else (List.range (va_max w.to_bit_indices + 1)).map
          (fun j => decide (j ∈ w.to_bit_indices)) := rfl

theorem ofMask_to_bit_vector_eq (w : big_whole) :
    big_whole.ofMask w.to_bit_vector = big_whole.ofIndices w.to_bit_indices := by
  rw [to_bit_vector_eq]
  show big_whole.mk (Option.some (bit_vector_to_va _))
    = big_whole.mk (Option.some (bit_indices_to_va _))
  unfold bit_indices_to_va
  by_cases h : w.to_bit_indices.length = 0
  · rw [if_pos h, if_pos h]
  · rw [if_neg h, if_neg h]

/-- C5: rebuilding a value from its set-bit index list (or from its boolean
mask view) yields a value observably equal to the original under `test` at
every index, `to_bit_vector` and `to_uintmax`. -/
theorem claim_C5_round_trip (w : big_whole) (hWF : WF w) :
    (∀ i, (big_whole.ofIndices w.to_bit_indices).test i = w.test i)
    ∧ (big_whole.ofIndices w.to_bit_indices).to_bit_vector = w.to_bit_vector
    ∧ (big_whole.ofIndices w.to_bit_indices).to_uintmax = w.to_uintmax
    ∧ (∀ i, (big_whole.ofMask w.to_bit_vector).test i = w.test i)
    ∧ (big_whole.ofMask w.to_bit_vector).to_bit_vector = w.to_bit_vector
    ∧ (big_whole.ofMask w.to_bit_vector).to_uintmax = w.to_uintmax := by
  have htest : ∀ i, (big_whole.ofIndices w.to_bit_indices).test i = w.test i := by
    intro i
    rw [test_ofIndices]
    by_cases hm : i ∈ w.to_bit_indices
    · rw [decide_eq_true hm]
      exact ((mem_to_bit_indices w i).mp hm).symm
    · have ht : w.test i = false := by
        cases hx : w.test i
        · rfl
        · exact absurd ((mem_to_bit_indices w i).mpr hx) hm
      rw [ht, decide_eq_false hm]
  have hmask := ofMask_to_bit_vector_eq w
  have hbv : (big_whole.ofIndices w.to_bit_indices).to_bit_vector = w.to_bit_vector :=
    to_bit_vector_congr (to_bit_indices_eq_of_test htest)
  have hui : (big_whole.ofIndices w.to_bit_indices).to_uintmax = w.to_uintmax :=
    to_uintmax_eq_of_test (WF_ofIndices _) hWF htest
  refine ⟨htest, hbv, hui, ?_, ?_, ?_⟩
  · rw [hmask]
    exact htest
  · rw [hmask]
    exact hbv
  · rw [hmask]
    exact hui

theorem claim_C5_round_trip_witness :
    (big_whole.ofIndices ((big_whole.mk (Option.some [5])).to_bit_indices)).test 2
      = (big_whole.mk (Option.some [5])).test 2
    ∧ (big_whole.ofIndices ((big_whole.mk (Option.some [5])).to_bit_indices)).to_uintmax
      = (big_whole.mk (Option.some [5])).to_uintmax
    ∧ (big_whole.ofMask ((big_whole.mk (Option.some [5])).to_bit_vector)).to_bit_vector
      = (big_whole.mk (Option.some [5])).to_bit_vector :=
  ⟨(claim_C5_round_trip (big_whole.mk (Option.some [5])) (by decide)).1 2,
   (claim_C5_round_trip (big_whole.mk (Option.some [5])) (by decide)).2.2.1,
   (claim_C5_round_trip (big_whole.mk (Option.some [5])) (by decide)).2.2.2.2.1⟩

/-! ### `bits_assign` -/

theorem bits_assign_eq (w : big_whole) (a b : Nat) (s : big_whole) :
    w.bits_assign a b s
      = big_whole.ofIndices
          ((w.to_bit_indices.filter (fun x => decide (x < min a b)))
            ++ ((s.to_bit_indices.filter (fun x => decide (x ≤ max a b - min a b))).map
                  (fun x => x + min a b))
            ++ (w.to_bit_indices.filter (fun x => decide (max a b < x)))) := by
  have hf : (if a > b then b else a) = min a b := by
    rcases Nat.lt_or_ge b a with h | h
    · rw [if_pos h]
      exact (Nat.min_eq_right (Nat.le_of_lt h)).symm
    · rw [if_neg (Nat.not_lt.mpr h)]
      exact (Nat.min_eq_left h).symm
  have ht : (if a > b then a else b) = max a b := by
    rcases Nat.lt_or_ge b a with h | h
    · rw [if_pos h]
      exact (Nat.max_eq_left (Nat.le_of_lt h)).symm
    · rw [if_neg (Nat.not_lt.mpr h)]
      exact (Nat.max_eq_right h).symm
  show big_whole.ofIndices _ = big_whole.ofIndices _
  rw [hf, ht]

/-- C3: after normalising the endpoints, `bits_assign` leaves receiver bits
outside `[from, to]` unchanged and overwrites bit `from + k` with source bit
`k` for `0 ≤ k ≤ to - from`; in particular the spec's concrete example
rebuilds the index set `{0, 2, 3, 5}`. -/
theorem claim_C3_bits_assign_range (w s : big_whole) (a b : Nat) :
    (∀ i, i < min a b ∨ max a b < i → (w.bits_assign a b s).test i = w.test i)
    ∧ (∀ k, k ≤ max a b - min a b →
        (w.bits_assign a b s).test (min a b + k) = s.test k)
    ∧ ((big_whole.ofIndices [0, 5]).bits_assign 2 4
        (big_whole.ofIndices [0, 1])).to_bit_indices = [0, 2, 3, 5] := by
  have hft : min a b ≤ max a b := min_le_max
  refine ⟨?_, ?_, by decide⟩
  · intro i hi
    rw [bits_assign_eq, test_ofIndices]
    cases hx : w.test i
    · apply decide_eq_false
      intro hmem
      rcases List.mem_append.mp hmem with hprenew | hpost
      · rcases List.mem_append.mp hprenew with hpre | hnew
        · have := (List.mem_filter.mp hpre).1
          rw [(mem_to_bit_indices w i).mp this] at hx
          cases hx
        · obtain ⟨x, hx2, hxi⟩ := List.mem_map.mp hnew
          have hxle : x ≤ max a b - min a b := of_decide_eq_true (List.mem_filter.mp hx2).2
          rcases hi with hi | hi
          · omega
          · omega
      · have := (List.mem_filter.mp hpost).1
        rw [(mem_to_bit_indices w i).mp this] at hx
        cases hx
    · apply decide_eq_true
      rcases hi with hi | hi
      · exact List.mem_append.mpr (Or.inl (List.mem_append.mpr (Or.inl
          (List.mem_filter.mpr ⟨(mem_to_bit_indices w i).mpr hx, decide_eq_true hi⟩))))
      · exact List.mem_append.mpr (Or.inr
          (List.mem_filter.mpr ⟨(mem_to_bit_indices w i).mpr hx, decide_eq_true hi⟩))
  · intro k hk
    rw [bits_assign_eq, test_ofIndices]
    cases hs : s.test k
    · apply decide_eq_false
      intro hmem
      rcases List.mem_append.mp hmem with hprenew | hpost
      · rcases List.mem_append.mp hprenew with hpre | hnew
        · have h2 : min a b + k < min a b := of_decide_eq_true (List.mem_filter.mp hpre).2
          omega
        · obtain ⟨x, hx2, hxi⟩ := List.mem_map.mp hnew
          have hxeq : x = k := by omega
          subst hxeq
          have := (List.mem_filter.mp hx2).1
          rw [(mem_to_bit_indices s x).mp this] at hs
          cases hs
      · have h2 : max a b < min a b + k := of_decide_eq_true (List.mem_filter.mp hpost).2
        omega
    · apply decide_eq_true
      refine List.mem_append.mpr (Or.inl (List.mem_append.mpr (Or.inr ?_)))
      exact List.mem_map.mpr ⟨k,
        List.mem_filter.mpr ⟨(mem_to_bit_indices s k).mpr hs, decide_eq_true hk⟩,
        by omega⟩

theorem claim_C3_bits_assign_range_witness :
    ((big_whole.ofIndices [0, 5]).bits_assign 4 2 (big_whole.ofIndices [0, 1])).test 5
      = (big_whole.ofIndices [0, 5]).test 5
    ∧ ((big_whole.ofIndices [0, 5]).bits_assign 4 2 (big_whole.ofIndices [0, 1])).test 3
      = (big_whole.ofIndices [0, 1]).test 1
    ∧ ((big_whole.ofIndices [0, 5]).bits_assign 2 4
        (big_whole.ofIndices [0, 1])).to_bit_indices = [0, 2, 3, 5] :=
  ⟨(claim_C3_bits_assign_range (big_whole.ofIndices [0, 5]) (big_whole.ofIndices [0, 1])
      4 2).1 5 (by decide),
   (claim_C3_bits_assign_range (big_whole.ofIndices [0, 5]) (big_whole.ofIndices [0, 1])
      4 2).2.1 1 (by decide),
   (claim_C3_bits_assign_range (big_whole.ofIndices [0, 5]) (big_whole.ofIndices [0, 1])
      4 2).2.2⟩

/-! ### Characterisation of `bit_change` (range and single-bit forms) -/

/-- The effect of a `bit_operation` on one bit. -/
def opBit : bit_operation → Bool → Bool
  | bit_operation.reset_bit, _ => false
  | bit_operation.set_bit, _ => true
  | bit_operation.flip_bit, x => !x

theorem wordNot_testBit (m j : Nat) (hj : j < wordDigits) :
    (wordNot m).testBit j = !(m.testBit j) := by
  unfold wordNot
  rw [Nat.testBit_xor, Nat.testBit_two_pow_sub_one, decide_eq_true hj, Bool.true_xor]

theorem fm_testBit (fj j : Nat) (hfj : fj < wordDigits) :
    (wordNot ((1 <<< fj) - 1)).testBit j
      = (decide (j < wordDigits) && decide (fj ≤ j)) := by
  unfold wordNot
  rw [one_shiftLeft_eq, Nat.testBit_xor, Nat.testBit_two_pow_sub_one,
    Nat.testBit_two_pow_sub_one]
  rcases Nat.lt_or_ge j wordDigits with h | h
  · rw [decide_eq_true h, Bool.true_xor, Bool.true_and]
    rcases Nat.lt_or_ge j fj with h2 | h2
    · simp [h2, Nat.not_le.mpr h2]
    · simp [h2, Nat.not_lt.mpr h2]
  · have h2 : ¬ (j < fj) := by omega
    simp [Nat.not_lt.mpr h, h2]

theorem tm_testBit (tj j : Nat) :
    ((1 <<< tj) ||| ((1 <<< tj) - 1)).testBit j = decide (j ≤ tj) := by
  rw [one_shiftLeft_eq, Nat.testBit_or, Nat.testBit_two_pow, Nat.testBit_two_pow_sub_one]
  rcases Nat.lt_trichotomy j tj with h | h | h
  · simp [h, Nat.le_of_lt h, Nat.ne_of_gt h]
  · simp [h]
  · have h2 : ¬ (j ≤ tj) := by omega
    have h3 : ¬ (tj = j) := by omega
    have h4 : ¬ (j < tj) := by omega
    simp [h2, h3, h4]

theorem writeWord_length (v : List Nat) (idx : Nat) (op : bit_operation) (m vs : Nat) :
    (writeWord v idx op m vs).length = v.length := by
  unfold writeWord
  cases op with
  | flip_bit => rw [List.length_set]
  | set_bit => rw [List.length_set]
  | reset_bit =>
    by_cases h : idx < vs
    · rw [if_pos h, List.length_set]
    · rw [if_neg h]

theorem writeWord_testVa (v : List Nat) (idx : Nat) (op : bit_operation) (m : Nat)
    (hidx : op ≠ bit_operation.reset_bit → idx < v.length) (k : Nat) :
    testVa (writeWord v idx op m v.length) k
      = if k / wordDigits = idx ∧ m.testBit (k % wordDigits) = true
        then opBit op (testVa v k) else testVa v k := by
  cases op with
  | flip_bit =>
    have hlt : idx < v.length := hidx (by intro h; cases h)
    show testVa (v.set idx ((v.getD idx 0) ^^^ m)) k = _
    by_cases hdiv : k / wordDigits = idx
    · unfold testVa
      rw [hdiv, getD_set_eq hlt, Nat.testBit_xor]
      by_cases hm : m.testBit (k % wordDigits) = true
      · rw [if_pos ⟨rfl, hm⟩, hm, Bool.xor_true]
        rfl
      · rw [if_neg (fun hc => hm hc.2)]
        rw [Bool.not_eq_true] at hm
        rw [hm, Bool.xor_false]
    · unfold testVa
      rw [getD_set_ne (fun hc => hdiv hc.symm), if_neg (fun hc => hdiv hc.1)]
  | set_bit =>
    have hlt : idx < v.length := hidx (by intro h; cases h)
    show testVa (v.set idx ((v.getD idx 0) ||| m)) k = _
    by_cases hdiv : k / wordDigits = idx
    · unfold testVa
      rw [hdiv, getD_set_eq hlt, Nat.testBit_or]
      by_cases hm : m.testBit (k % wordDigits) = true
      · rw [if_pos ⟨rfl, hm⟩, hm, Bool.or_true]
        rfl
      · rw [if_neg (fun hc => hm hc.2)]
        rw [Bool.not_eq_true] at hm
        rw [hm, Bool.or_false]
    · unfold testVa
      rw [getD_set_ne (fun hc => hdiv hc.symm), if_neg (fun hc => hdiv hc.1)]
  | reset_bit =>
    show testVa (if idx < v.length then v.set idx ((v.getD idx 0) &&& wordNot m) else v) k = _
    by_cases hlt : idx < v.length
    · rw [if_pos hlt]
      by_cases hdiv : k / wordDigits = idx
      · unfold testVa
        rw [hdiv, getD_set_eq hlt, Nat.testBit_and, wordNot_testBit m _ (wd_mod_lt k)]
        by_cases hm : m.testBit (k % wordDigits) = true
        · rw [if_pos ⟨rfl, hm⟩, hm]
          show (_ && !true) = opBit bit_operation.reset_bit _
          rw [Bool.not_true, Bool.and_false]
          rfl
        · rw [if_neg (fun hc => hm hc.2)]
          rw [Bool.not_eq_true] at hm
          rw [hm, Bool.not_false, Bool.and_true]
      · unfold testVa
        rw [getD_set_ne (fun hc => hdiv hc.symm), if_neg (fun hc => hdiv hc.1)]
    · rw [if_neg hlt]
      by_cases hc : k / wordDigits = idx ∧ m.testBit (k % wordDigits) = true
      · rw [if_pos hc]
        have : testVa v k = false := by
          apply testVa_false_of_ge
          rw [hc.1]
          exact Nat.le_of_not_lt hlt
        rw [this]
        rfl
      · rw [if_neg hc]

theorem writeWord_bound (v : List Nat) (idx : Nat) (op : bit_operation) (m vs : Nat)
    (hm : m < 2 ^ wordDigits) (hW : ∀ x ∈ v, x < 2 ^ wordDigits) :
    ∀ x ∈ writeWord v idx op m vs, x < 2 ^ wordDigits := by
  unfold writeWord
  have hget : v.getD idx 0 < 2 ^ wordDigits := by
    rcases getD_mem_or (l := v) idx with h | h
    · exact hW _ h
    · rw [h]
      decide
  cases op with
  | flip_bit =>
    intro x hx
    rcases List.mem_or_eq_of_mem_set hx with h | h
    · exact hW x h
    · rw [h]
      exact Nat.xor_lt_two_pow hget hm
  | set_bit =>
    intro x hx
    rcases List.mem_or_eq_of_mem_set hx with h | h
    · exact hW x h
    · rw [h]
      exact Nat.or_lt_two_pow hget hm
  | reset_bit =>
    by_cases h : idx < vs
    · rw [if_pos h]
      intro x hx
      rcases List.mem_or_eq_of_mem_set hx with h2 | h2
      · exact hW x h2
      · rw [h2]
        exact Nat.lt_of_le_of_lt (Nat.and_le_left) hget
    · rw [if_neg h]
      exact hW

theorem fillWord_testBit (op : bit_operation) (wv j : Nat) (hj : j < wordDigits) :
    (fillWord op wv).testBit j = opBit op (wv.testBit j) := by
  cases op with
  | flip_bit =>
    show (wv ^^^ (2 ^ wordDigits - 1)).testBit j = !(wv.testBit j)
    rw [Nat.testBit_xor, Nat.testBit_two_pow_sub_one, decide_eq_true hj, Bool.xor_true]
  | set_bit =>
    show (2 ^ wordDigits - 1).testBit j = true
    rw [Nat.testBit_two_pow_sub_one, decide_eq_true hj]
  | reset_bit =>
    show Nat.testBit 0 j = false
    exact Nat.zero_testBit j

theorem fillWord_bound (op : bit_operation) (wv : Nat) (h : wv < 2 ^ wordDigits) :
    fillWord op wv < 2 ^ wordDigits := by
  cases op with
  | flip_bit => exact Nat.xor_lt_two_pow h (by decide)
  | set_bit =>
    show 2 ^ wordDigits - 1 < 2 ^ wordDigits
    decide
  | reset_bit =>
    show 0 < 2 ^ wordDigits
    decide

theorem foldMid_length (op : bit_operation) (start cnt : Nat) (v : List Nat) :
    ((List.range cnt).foldl
      (fun acc k => acc.set (start + k) (fillWord op (acc.getD (start + k) 0))) v).length
      = v.length := by
  induction cnt with
  | zero => rfl
  | succ c ihc =>
    rw [List.range_succ, List.foldl_append, List.foldl_cons, List.foldl_nil,
      List.length_set, ihc]

theorem foldMid_getD (op : bit_operation) (start cnt : Nat) (v : List Nat) :
    start + cnt ≤ v.length → ∀ idx,
    ((List.range cnt).foldl
      (fun acc k => acc.set (start + k) (fillWord op (acc.getD (start + k) 0))) v).getD idx 0
      = if start ≤ idx ∧ idx < start + cnt then fillWord op (v.getD idx 0)
        else v.getD idx 0 := by
  induction cnt with
  | zero =>
    intro _ idx
    rw [if_neg (by omega)]
    rfl
  | succ c ihc =>
    intro h idx
    have hc : start + c ≤ v.length := by omega
    rw [List.range_succ, List.foldl_append, List.foldl_cons, List.foldl_nil]
    have hprev_at : ((List.range c).foldl
        (fun acc k => acc.set (start + k) (fillWord op (acc.getD (start + k) 0))) v).getD
          (start + c) 0 = v.getD (start + c) 0 := by
      rw [ihc hc (start + c), if_neg (by omega)]
    have hprevlen := foldMid_length op start c v
    by_cases hidx : idx = start + c
    · subst hidx
      rw [getD_set_eq (by rw [hprevlen]; omega), hprev_at, if_pos (by omega)]
    · rw [getD_set_ne (fun hc2 => hidx hc2.symm), ihc hc idx]
      by_cases h2 : start ≤ idx ∧ idx < start + c
      · rw [if_pos h2, if_pos (by omega)]
      · rw [if_neg h2, if_neg (by omega)]

theorem foldMid_bound (op : bit_operation) (start cnt : Nat) (v : List Nat)
    (hW : ∀ x ∈ v, x < 2 ^ wordDigits) :
    ∀ x ∈ (List.range cnt).foldl
      (fun acc k => acc.set (start + k) (fillWord op (acc.getD (start + k) 0))) v,
      x < 2 ^ wordDigits := by
  induction cnt with
  | zero => exact hW
  | succ c ihc =>
    rw [List.range_succ, List.foldl_append, List.foldl_cons, List.foldl_nil]
    intro x hx
    rcases List.mem_or_eq_of_mem_set hx with h | h
    · exact ihc x h
    · rw [h]
      apply fillWord_bound
      rcases getD_mem_or (l := (List.range c).foldl _ v) (start + c) with h2 | h2
      · exact ihc _ h2
      · rw [h2]
        decide

theorem writeMiddle_length (v : List Nat) (start stop : Nat) (op : bit_operation) :
    (writeMiddle v start stop op).length = v.length := by
  unfold writeMiddle
  by_cases h : stop > start
  · rw [if_pos h, foldMid_length]
  · rw [if_neg h]

theorem writeMiddle_testVa (v : List Nat) (start stop : Nat) (op : bit_operation)
    (hstop : stop ≤ v.length) (k : Nat) :
    testVa (writeMiddle v start stop op) k
      = if start ≤ k / wordDigits ∧ k / wordDigits < stop
        then opBit op (testVa v k) else testVa v k := by
  unfold writeMiddle
  by_cases hgt : stop > start
  · rw [if_pos hgt]
    by_cases h2 : start ≤ k / wordDigits ∧ k / wordDigits < stop
    · rw [if_pos h2]
      unfold testVa
      rw [foldMid_getD op start (stop - start) v (by omega),
        if_pos (by simp only [wordDigits] at *; omega),
        fillWord_testBit op _ _ (wd_mod_lt k)]
    · rw [if_neg h2]
      unfold testVa
      rw [foldMid_getD op start (stop - start) v (by omega),
        if_neg (by simp only [wordDigits] at *; omega)]
  · rw [if_neg hgt, if_neg (by omega)]

theorem writeMiddle_bound (v : List Nat) (start stop : Nat) (op : bit_operation)
    (hW : ∀ x ∈ v, x < 2 ^ wordDigits) :
    ∀ x ∈ writeMiddle v start stop op, x < 2 ^ wordDigits := by
  unfold writeMiddle
  by_cases h : stop > start
  · rw [if_pos h]
    exact foldMid_bound op start (stop - start) v hW
  · rw [if_neg h]
    exact hW

theorem bcGrow_length (v0 : List Nat) (ti : Nat) (op : bit_operation) :
    (bcGrow v0 ti op).length
      = if op = bit_operation.reset_bit then v0.length
        else Nat.max v0.length (ti + 1) := by
  unfold bcGrow
  by_cases h : ti ≥ v0.length ∧ op ≠ bit_operation.reset_bit
  · rw [if_pos h, if_neg h.2, List.length_append, List.length_replicate]
    have h1 := h.1
    have hmax : Nat.max v0.length (ti + 1) = ti + 1 :=
      Nat.max_eq_right (by omega : v0.length ≤ ti + 1)
    omega
  · rw [if_neg h]
    by_cases hop : op = bit_operation.reset_bit
    · rw [if_pos hop]
    · rw [if_neg hop]
      have h2 : ¬ (ti ≥ v0.length) := fun hc => h ⟨hc, hop⟩
      have hmax : Nat.max v0.length (ti + 1) = v0.length :=
        Nat.max_eq_left (by omega : ti + 1 ≤ v0.length)
      omega

theorem bcGrow_testVa (v0 : List Nat) (ti : Nat) (op : bit_operation) (k : Nat) :
    testVa (bcGrow v0 ti op) k = testVa v0 k := by
  unfold bcGrow
  by_cases h : ti ≥ v0.length ∧ op ≠ bit_operation.reset_bit
  · rw [if_pos h, testVa_append_zeros]
  · rw [if_neg h]

theorem bcGrow_bound (v0 : List Nat) (ti : Nat) (op : bit_operation)
    (hW : ∀ x ∈ v0, x < 2 ^ wordDigits) :
    ∀ x ∈ bcGrow v0 ti op, x < 2 ^ wordDigits := by
  unfold bcGrow
  by_cases h : ti ≥ v0.length ∧ op ≠ bit_operation.reset_bit
  · rw [if_pos h]
    intro x hx
    rcases List.mem_append.mp hx with h2 | h2
    · exact hW x h2
    · rw [List.eq_of_mem_replicate h2]
      decide
  · rw [if_neg h]
    exact hW

theorem bcGrow_top_lt (v0 : List Nat) (ti : Nat) (op : bit_operation)
    (hop : op ≠ bit_operation.reset_bit) : ti < (bcGrow v0 ti op).length := by
  rw [bcGrow_length, if_neg hop]
  exact Nat.lt_of_lt_of_le (Nat.lt_succ_self ti) (Nat.le_max_right _ _)

theorem wordNot_lt (m : Nat) (hm : m < 2 ^ wordDigits) : wordNot m < 2 ^ wordDigits :=
  Nat.xor_lt_two_pow (by decide) hm

theorem shift_sub_one_lt (j : Nat) (hj : j < wordDigits) :
    (1 <<< j) - 1 < 2 ^ wordDigits := by
  rw [one_shiftLeft_eq]
  have h1 : 2 ^ j ≤ 2 ^ wordDigits := Nat.pow_le_pow_right (by decide) (Nat.le_of_lt hj)
  have h0 : 0 < 2 ^ wordDigits := by decide
  omega

theorem tm_lt (j : Nat) (hj : j < wordDigits) :
    (1 <<< j) ||| ((1 <<< j) - 1) < 2 ^ wordDigits := by
  apply Nat.or_lt_two_pow
  · rw [one_shiftLeft_eq]
    exact Nat.pow_lt_pow_right (by decide) hj
  · exact shift_sub_one_lt j hj

theorem bcWords_length (v0 : List Nat) (f t : Nat) (op : bit_operation) :
    (bcWords v0 f t op).length = (bcGrow v0 (t / wordDigits) op).length := by
  unfold bcWords
  by_cases h : f / wordDigits = t / wordDigits
  · rw [if_pos h, writeWord_length]
  · rw [if_neg h, writeWord_length, writeMiddle_length, writeWord_length]

theorem bcWords_bound (v0 : List Nat) (f t : Nat) (op : bit_operation)
    (hW : ∀ x ∈ v0, x < 2 ^ wordDigits) :
    ∀ x ∈ bcWords v0 f t op, x < 2 ^ wordDigits := by
  have hg := bcGrow_bound v0 (t / wordDigits) op hW
  unfold bcWords
  by_cases h : f / wordDigits = t / wordDigits
  · rw [if_pos h]
    apply writeWord_bound
    · exact Nat.lt_of_le_of_lt Nat.and_le_left
        (wordNot_lt _ (shift_sub_one_lt _ (wd_mod_lt f)))
    · exact hg
  · rw [if_neg h]
    apply writeWord_bound
    · exact tm_lt _ (wd_mod_lt t)
    · apply writeMiddle_bound
      apply writeWord_bound
      · exact wordNot_lt _ (shift_sub_one_lt _ (wd_mod_lt f))
      · exact hg

theorem bcWords_testVa (v0 : List Nat) (f t : Nat) (op : bit_operation)
    (hft : f ≤ t) (k : Nat) :
    testVa (bcWords v0 f t op) k
      = if f ≤ k ∧ k ≤ t then opBit op (testVa v0 k) else testVa v0 k := by
  unfold bcWords
  by_cases heq : f / wordDigits = t / wordDigits
  · rw [if_pos heq]
    have hidx : op ≠ bit_operation.reset_bit →
        f / wordDigits < (bcGrow v0 (t / wordDigits) op).length := by
      intro hop
      rw [heq]
      exact bcGrow_top_lt _ _ _ hop
    rw [writeWord_testVa _ _ _ _ hidx k, bcGrow_testVa]
    have hiff : (k / wordDigits = f / wordDigits
        ∧ ((wordNot ((1 <<< (f % wordDigits)) - 1))
            &&& ((1 <<< (t % wordDigits)) ||| ((1 <<< (t % wordDigits)) - 1))).testBit
              (k % wordDigits) = true)
        ↔ (f ≤ k ∧ k ≤ t) := by
      rw [Nat.testBit_and, fm_testBit _ _ (wd_mod_lt f), tm_testBit,
        Bool.and_eq_true, Bool.and_eq_true, decide_eq_true_eq, decide_eq_true_eq,
        decide_eq_true_eq]
      simp only [wordDigits] at *
      omega
    by_cases hin : f ≤ k ∧ k ≤ t
    · rw [if_pos (hiff.mpr hin), if_pos hin]
    · rw [if_neg (fun hc => hin (hiff.mp hc)), if_neg hin]
  · rw [if_neg heq]
    have hfi_lt_ti : f / wordDigits < t / wordDigits :=
      Nat.lt_of_le_of_ne (Nat.div_le_div_right hft) heq
    set v1 := bcGrow v0 (t / wordDigits) op with hv1
    set fm := wordNot ((1 <<< (f % wordDigits)) - 1) with hfm
    set tm := (1 <<< (t % wordDigits)) ||| ((1 <<< (t % wordDigits)) - 1) with htm
    set w1 := writeWord v1 (f / wordDigits) op fm v1.length with hw1
    set mid := writeMiddle w1 (f / wordDigits + 1) (min v1.length (t / wordDigits)) op
      with hmid
    have hw1len : w1.length = v1.length := by
      rw [hw1, writeWord_length]
    have hmidlen : mid.length = v1.length := by
      rw [hmid, writeMiddle_length, hw1len]
    have htestw1 : ∀ k2, testVa w1 k2
        = if k2 / wordDigits = f / wordDigits ∧ fm.testBit (k2 % wordDigits) = true
          then opBit op (testVa v1 k2) else testVa v1 k2 := by
      intro k2
      rw [hw1]
      exact writeWord_testVa v1 _ op fm
        (fun hop => Nat.lt_trans hfi_lt_ti (by rw [← hv1] at *; exact bcGrow_top_lt _ _ _ hop))
        k2
    have htestmid : ∀ k2, testVa mid k2
        = if f / wordDigits + 1 ≤ k2 / wordDigits
            ∧ k2 / wordDigits < min v1.length (t / wordDigits)
          then opBit op (testVa w1 k2) else testVa w1 k2 := by
      intro k2
      rw [hmid]
      apply writeMiddle_testVa
      rw [hw1len]
      exact Nat.min_le_left _ _
    have htesttop : testVa (writeWord mid (t / wordDigits) op tm v1.length) k
        = if k / wordDigits = t / wordDigits ∧ tm.testBit (k % wordDigits) = true
          then opBit op (testVa mid k) else testVa mid k := by
      rw [show v1.length = mid.length from hmidlen.symm]
      refine writeWord_testVa mid _ op tm (fun hop => ?_) k
      rw [hmidlen]
      exact bcGrow_top_lt _ _ _ hop
    rw [htesttop]
    by_cases hin : f ≤ k ∧ k ≤ t
    · rcases Nat.lt_trichotomy (k / wordDigits) (t / wordDigits) with hklt | hkeq | hkgt
      · have htopcond : ¬ (k / wordDigits = t / wordDigits
            ∧ tm.testBit (k % wordDigits) = true) :=
          fun hc => absurd hc.1 (Nat.ne_of_lt hklt)
        rw [if_neg htopcond, htestmid k]
        rcases Nat.lt_or_ge (k / wordDigits) (f / wordDigits + 1) with hkf | hkf
        · have hkfi : k / wordDigits = f / wordDigits := by
            obtain ⟨hin1, hin2⟩ := hin
            simp only [wordDigits] at *
            omega
          have hmidcond : ¬ (f / wordDigits + 1 ≤ k / wordDigits
              ∧ k / wordDigits < min v1.length (t / wordDigits)) := fun hc => by
            rw [hkfi] at hc
            exact absurd hc.1 (by omega)
          rw [if_neg hmidcond, htestw1 k]
          have hlowcond : (k / wordDigits = f / wordDigits
              ∧ fm.testBit (k % wordDigits) = true) := by
            refine ⟨hkfi, ?_⟩
            rw [hfm, fm_testBit _ _ (wd_mod_lt f), Bool.and_eq_true,
              decide_eq_true_eq, decide_eq_true_eq]
            refine ⟨wd_mod_lt k, ?_⟩
            obtain ⟨hin1, hin2⟩ := hin
            simp only [wordDigits] at *
            omega
          rw [if_pos hlowcond, hv1, bcGrow_testVa, if_pos hin]
        · rcases Nat.lt_or_ge (k / wordDigits) v1.length with hvs | hvs
          · have hmidcond : (f / wordDigits + 1 ≤ k / wordDigits
                ∧ k / wordDigits < min v1.length (t / wordDigits)) :=
              ⟨hkf, Nat.lt_min.mpr ⟨hvs, hklt⟩⟩
            rw [if_pos hmidcond, htestw1 k]
            have hlowcond : ¬ (k / wordDigits = f / wordDigits
                ∧ fm.testBit (k % wordDigits) = true) := fun hc => by
              rw [hc.1] at hkf
              exact absurd hkf (by omega)
            rw [if_neg hlowcond, hv1, bcGrow_testVa, if_pos hin]
          · have hop : op = bit_operation.reset_bit := by
              by_contra hop
              have hlt := bcGrow_top_lt v0 (t / wordDigits) op hop
              rw [← hv1] at hlt
              omega
            have hmidcond : ¬ (f / wordDigits + 1 ≤ k / wordDigits
                ∧ k / wordDigits < min v1.length (t / wordDigits)) := fun hc => by
              have h2 := Nat.lt_min.mp hc.2
              omega
            rw [if_neg hmidcond, htestw1 k]
            have hlowcond : ¬ (k / wordDigits = f / wordDigits
                ∧ fm.testBit (k % wordDigits) = true) := fun hc => by
              rw [hc.1] at hkf
              exact absurd hkf (by omega)
            rw [if_neg hlowcond, if_pos hin, hop]
            show testVa v1 k = false
            exact testVa_false_of_ge hvs
      · have htopcond : (k / wordDigits = t / wordDigits
            ∧ tm.testBit (k % wordDigits) = true) := by
          refine ⟨hkeq, ?_⟩
          rw [htm, tm_testBit, decide_eq_true_eq]
          obtain ⟨hin1, hin2⟩ := hin
          simp only [wordDigits] at *
          omega
        rw [if_pos htopcond, htestmid k]
        have hmidcond : ¬ (f / wordDigits + 1 ≤ k / wordDigits
            ∧ k / wordDigits < min v1.length (t / wordDigits)) := fun hc => by
          have h2 := Nat.lt_min.mp hc.2
          rw [hkeq] at h2
          exact absurd h2.2 (by omega)
        rw [if_neg hmidcond, htestw1 k]
        have hlowcond : ¬ (k / wordDigits = f / wordDigits
            ∧ fm.testBit (k % wordDigits) = true) := fun hc =>
          heq (hc.1.symm.trans hkeq)
        rw [if_neg hlowcond, hv1, bcGrow_testVa, if_pos hin]
      · exfalso
        obtain ⟨hin1, hin2⟩ := hin
        simp only [wordDigits] at *
        omega
    · have htopcond : ¬ (k / wordDigits = t / wordDigits
          ∧ tm.testBit (k % wordDigits) = true) := by
        intro hc
        obtain ⟨h1, h2⟩ := hc
        rw [htm, tm_testBit, decide_eq_true_eq] at h2
        apply hin
        constructor
        · simp only [wordDigits] at *
          omega
        · simp only [wordDigits] at *
          omega
      rw [if_neg htopcond, htestmid k]
      have hmidcond : ¬ (f / wordDigits + 1 ≤ k / wordDigits
          ∧ k / wordDigits < min v1.length (t / wordDigits)) := by
        intro hc
        have h2 := Nat.lt_min.mp hc.2
        have h1 := hc.1
        apply hin
        constructor
        · simp only [wordDigits] at *
          omega
        · simp only [wordDigits] at *
          omega
      rw [if_neg hmidcond, htestw1 k]
      have hlowcond : ¬ (k / wordDigits = f / wordDigits
          ∧ fm.testBit (k % wordDigits) = true) := by
        intro hc
        obtain ⟨h1, h2⟩ := hc
        rw [hfm, fm_testBit _ _ (wd_mod_lt f), Bool.and_eq_true,
          decide_eq_true_eq, decide_eq_true_eq] at h2
        apply hin
        constructor
        · simp only [wordDigits] at *
          omega
        · simp only [wordDigits] at *
          omega
      rw [if_neg hlowcond, hv1, bcGrow_testVa, if_neg hin]

theorem bc1Words_testVa (v0 : List Nat) (i : Nat) (op : bit_operation) (k : Nat) :
    testVa (bc1Words v0 i op) k
      = if k = i then opBit op (testVa v0 k) else testVa v0 k := by
  unfold bc1Words
  rw [writeWord_testVa _ _ _ _ (fun hop => bcGrow_top_lt _ _ _ hop) k, bcGrow_testVa]
  have hiff : (k / wordDigits = i / wordDigits
      ∧ (1 <<< (i % wordDigits)).testBit (k % wordDigits) = true) ↔ k = i := by
    rw [one_shiftLeft_eq, Nat.testBit_two_pow, decide_eq_true_eq]
    constructor
    · rintro ⟨h1, h2⟩
      exact (eq_iff_wd i k).mpr ⟨h1, h2.symm⟩
    · rintro rfl
      exact ⟨rfl, rfl⟩
  by_cases hk : k = i
  · rw [if_pos (hiff.mpr hk), if_pos hk]
  · rw [if_neg (fun hc => hk (hiff.mp hc)), if_neg hk]

theorem bc1Words_length (v0 : List Nat) (i : Nat) (op : bit_operation) :
    (bc1Words v0 i op).length = (bcGrow v0 (i / wordDigits) op).length := by
  unfold bc1Words
  rw [writeWord_length]

theorem bc1Words_bound (v0 : List Nat) (i : Nat) (op : bit_operation)
    (hW : ∀ x ∈ v0, x < 2 ^ wordDigits) :
    ∀ x ∈ bc1Words v0 i op, x < 2 ^ wordDigits := by
  unfold bc1Words
  apply writeWord_bound
  · rw [one_shiftLeft_eq]
    exact Nat.pow_lt_pow_right (by decide) (wd_mod_lt i)
  · exact bcGrow_bound v0 _ op hW

theorem writeWord_nil (idx : Nat) (op : bit_operation) (m vs : Nat) :
    writeWord [] idx op m vs = [] := by
  unfold writeWord
  cases op with
  | flip_bit => rfl
  | set_bit => rfl
  | reset_bit =>
    by_cases h : idx < vs
    · rw [if_pos h]
      rfl
    · rw [if_neg h]

theorem foldMid_nil (op : bit_operation) (start cnt : Nat) :
    (List.range cnt).foldl
      (fun acc k => acc.set (start + k) (fillWord op (acc.getD (start + k) 0))) [] = [] := by
  induction cnt with
  | zero => rfl
  | succ c ihc =>
    rw [List.range_succ, List.foldl_append, List.foldl_cons, List.foldl_nil, ihc]
    rfl

theorem writeMiddle_nil (start stop : Nat) (op : bit_operation) :
    writeMiddle [] start stop op = [] := by
  unfold writeMiddle
  by_cases h : stop > start
  · rw [if_pos h]
    exact foldMid_nil op start (stop - start)
  · rw [if_neg h]

theorem bcGrow_nil_reset (ti : Nat) :
    bcGrow [] ti bit_operation.reset_bit = [] := by
  unfold bcGrow
  rw [if_neg (fun hc => hc.2 rfl)]

theorem bcWords_nil_reset (f t : Nat) :
    bcWords [] f t bit_operation.reset_bit = [] := by
  unfold bcWords
  rw [bcGrow_nil_reset]
  by_cases hfi : f / wordDigits = t / wordDigits
  · rw [if_pos hfi, writeWord_nil]
  · rw [if_neg hfi, writeWord_nil, writeMiddle_nil, writeWord_nil]

theorem bc1Words_nil_reset (i : Nat) :
    bc1Words [] i bit_operation.reset_bit = [] := by
  unfold bc1Words
  rw [bcGrow_nil_reset, writeWord_nil]

theorem valWords_of_isNone {w : big_whole} (h : w.x_.isNone = true) : valWords w = [] := by
  rcases w with ⟨x⟩
  cases x with
  | none => rfl
  | some v => cases h

theorem valWords_bit_change (w : big_whole) (a b : Nat) (op : bit_operation) :
    valWords (w.bit_change a b op)
      = bcWords (valWords w) (if a > b then b else a) (if a > b then a else b) op := by
  unfold big_whole.bit_change
  by_cases h : w.x_.isNone = true ∧ op = bit_operation.reset_bit
  · rw [if_pos h, valWords_of_isNone h.1, h.2, bcWords_nil_reset]
    rfl
  · rw [if_neg h]
    rfl

theorem valWords_bit_change_one (w : big_whole) (i : Nat) (op : bit_operation) :
    valWords (w.bit_change_one i op) = bc1Words (valWords w) i op := by
  unfold big_whole.bit_change_one
  by_cases h : w.x_.isNone = true ∧ op = bit_operation.reset_bit
  · rw [if_pos h, valWords_of_isNone h.1, h.2, bc1Words_nil_reset]
    rfl
  · rw [if_neg h]
    rfl

theorem bit_change_isNone (w : big_whole) (a b : Nat) (op : bit_operation) :
    (w.bit_change a b op).x_.isNone
      = (w.x_.isNone && decide (op = bit_operation.reset_bit)) := by
  unfold big_whole.bit_change
  by_cases h : w.x_.isNone = true ∧ op = bit_operation.reset_bit
  · rw [if_pos h]
    rw [h.1, decide_eq_true h.2, Bool.and_true]
    rfl
  · rw [if_neg h]
    show false = _
    cases hN : w.x_.isNone
    · rw [Bool.false_and]
    · have hop : ¬ op = bit_operation.reset_bit := fun hc => h ⟨hN, hc⟩
      rw [Bool.true_and, decide_eq_false hop]

theorem bit_change_one_isNone (w : big_whole) (i : Nat) (op : bit_operation) :
    (w.bit_change_one i op).x_.isNone
      = (w.x_.isNone && decide (op = bit_operation.reset_bit)) := by
  unfold big_whole.bit_change_one
  by_cases h : w.x_.isNone = true ∧ op = bit_operation.reset_bit
  · rw [if_pos h]
    rw [h.1, decide_eq_true h.2, Bool.and_true]
    rfl
  · rw [if_neg h]
    show false = _
    cases hN : w.x_.isNone
    · rw [Bool.false_and]
    · have hop : ¬ op = bit_operation.reset_bit := fun hc => h ⟨hN, hc⟩
      rw [Bool.true_and, decide_eq_false hop]

theorem if_swap_min (a b : Nat) : (if a > b then b else a) = min a b := by
  rcases Nat.lt_or_ge b a with h | h
  · rw [if_pos h]
    exact (Nat.min_eq_right (Nat.le_of_lt h)).symm
  · rw [if_neg (Nat.not_lt.mpr h)]
    exact (Nat.min_eq_left h).symm

theorem if_swap_max (a b : Nat) : (if a > b then a else b) = max a b := by
  rcases Nat.lt_or_ge b a with h | h
  · rw [if_pos h]
    exact (Nat.max_eq_left (Nat.le_of_lt h)).symm
  · rw [if_neg (Nat.not_lt.mpr h)]
    exact (Nat.max_eq_right h).symm

theorem bit_change_length (w : big_whole) (a b : Nat) (op : bit_operation) :
    (valWords (w.bit_change a b op)).length
      = if op = bit_operation.reset_bit then (valWords w).length
        else Nat.max (valWords w).length ((max a b) / wordDigits + 1) := by
  rw [valWords_bit_change, bcWords_length, bcGrow_length, if_swap_max]

theorem bit_change_testVa (w : big_whole) (a b : Nat) (op : bit_operation) (k : Nat) :
    testVa (valWords (w.bit_change a b op)) k
      = if min a b ≤ k ∧ k ≤ max a b then opBit op (testVa (valWords w) k)
        else testVa (valWords w) k := by
  rw [valWords_bit_change, if_swap_min, if_swap_max]
  exact bcWords_testVa (valWords w) (min a b) (max a b) op min_le_max k

theorem bit_change_WF (w : big_whole) (a b : Nat) (op : bit_operation) (h : WF w) :
    WF (w.bit_change a b op) := by
  intro x hx
  rw [valWords_bit_change] at hx
  exact bcWords_bound _ _ _ op h x hx

theorem bit_change_one_length (w : big_whole) (i : Nat) (op : bit_operation) :
    (valWords (w.bit_change_one i op)).length
      = if op = bit_operation.reset_bit then (valWords w).length
        else Nat.max (valWords w).length (i / wordDigits + 1) := by
  rw [valWords_bit_change_one, bc1Words_length, bcGrow_length]

theorem bit_change_one_testVa (w : big_whole) (i : Nat) (op : bit_operation) (k : Nat) :
    testVa (valWords (w.bit_change_one i op)) k
      = if k = i then opBit op (testVa (valWords w) k) else testVa (valWords w) k := by
  rw [valWords_bit_change_one]
  exact bc1Words_testVa (valWords w) i op k

theorem bit_change_one_WF (w : big_whole) (i : Nat) (op : bit_operation) (h : WF w) :
    WF (w.bit_change_one i op) := by
  intro x hx
  rw [valWords_bit_change_one] at hx
  exact bc1Words_bound _ i op h x hx

theorem fold_bit_change_one (op : bit_operation) (l : List Nat) :
    l.Nodup → ∀ (w : big_whole),
      ((l.foldl (fun s i => s.bit_change_one i op) w).x_.isNone
        = (w.x_.isNone && (decide (op = bit_operation.reset_bit) || decide (l = []))))
      ∧ (valWords (l.foldl (fun s i => s.bit_change_one i op) w)).length
          = (if op = bit_operation.reset_bit then (valWords w).length
             else l.foldl (fun m i => Nat.max m (i / wordDigits + 1)) (valWords w).length)
      ∧ (∀ k, testVa (valWords (l.foldl (fun s i => s.bit_change_one i op) w)) k
          = if k ∈ l then opBit op (testVa (valWords w) k) else testVa (valWords w) k)
      ∧ (WF w → WF (l.foldl (fun s i => s.bit_change_one i op) w)) := by
  induction l with
  | nil =>
    intro _ w
    refine ⟨by simp, ?_, ?_, fun h => h⟩
    · by_cases hop : op = bit_operation.reset_bit
      · rw [if_pos hop]
        rfl
      · rw [if_neg hop]
        rfl
    · intro k
      rw [List.foldl_nil, if_neg (List.not_mem_nil k)]
  | cons i rest ih =>
    intro hnd w
    obtain ⟨hni, hndr⟩ := List.nodup_cons.mp hnd
    obtain ⟨ihA, ihB, ihC, ihD⟩ := ih hndr (w.bit_change_one i op)
    refine ⟨?_, ?_, ?_, ?_⟩
    · rw [List.foldl_cons, ihA, bit_change_one_isNone]
      have hc : decide ((i :: rest : List Nat) = []) = false := by simp
      rw [hc]
      cases hr : decide (op = bit_operation.reset_bit) <;>
        cases hrest : decide (rest = ([] : List Nat)) <;>
          cases hN : w.x_.isNone <;> simp
    · rw [List.foldl_cons, ihB, bit_change_one_length]
      by_cases hop : op = bit_operation.reset_bit
      · rw [if_pos hop, if_pos hop, if_pos hop]
      · rw [if_neg hop, if_neg hop, if_neg hop, List.foldl_cons]
    · intro k
      rw [List.foldl_cons, ihC k, bit_change_one_testVa]
      by_cases hk : k = i
      · subst hk
        rw [if_neg (fun hc => hni hc), if_pos rfl, if_pos (List.mem_cons_self _ _)]
      · by_cases hkr : k ∈ rest
        · rw [if_pos hkr, if_neg hk, if_pos (List.mem_cons_of_mem _ hkr)]
        · rw [if_neg hkr, if_neg hk, if_neg (by simp [List.mem_cons, hk, hkr])]
    · intro hW
      rw [List.foldl_cons]
      exact ihD (bit_change_one_WF _ _ _ hW)

theorem foldl_max_ge_init (g : Nat → Nat) (l : List Nat) :
    ∀ c, c ≤ l.foldl (fun m i => Nat.max m (g i)) c := by
  induction l with
  | nil => intro c; exact Nat.le_refl c
  | cons a rest ih =>
    intro c
    rw [List.foldl_cons]
    exact Nat.le_trans (Nat.le_max_left c (g a)) (ih _)

theorem foldl_max_ge_mem (g : Nat → Nat) (l : List Nat) :
    ∀ c, ∀ i ∈ l, g i ≤ l.foldl (fun m i => Nat.max m (g i)) c := by
  induction l with
  | nil => intro c i hi; cases hi
  | cons a rest ih =>
    intro c i hi
    rw [List.foldl_cons]
    rcases List.mem_cons.mp hi with rfl | hi
    · exact Nat.le_trans (Nat.le_max_right c (g i)) (foldl_max_ge_init g rest _)
    · exact ih _ i hi

theorem foldl_max_le (g : Nat → Nat) (l : List Nat) :
    ∀ c X, c ≤ X → (∀ i ∈ l, g i ≤ X) →
      l.foldl (fun m i => Nat.max m (g i)) c ≤ X := by
  induction l with
  | nil => intro c X hc _; exact hc
  | cons a rest ih =>
    intro c X hc hall
    rw [List.foldl_cons]
    apply ih
    · exact Nat.max_le.mpr ⟨hc, hall a (List.mem_cons_self _ _)⟩
    · exact fun i hi => hall i (List.mem_cons_of_mem _ hi)

theorem list_eq_of_testVa {v1 v2 : List Nat} (hlen : v1.length = v2.length)
    (hW1 : ∀ x ∈ v1, x < 2 ^ wordDigits) (hW2 : ∀ x ∈ v2, x < 2 ^ wordDigits)
    (h : ∀ k, testVa v1 k = testVa v2 k) : v1 = v2 := by
  apply List.ext_get hlen
  intro n h1 h2
  have e1 : v1.getD n 0 = v1.get ⟨n, h1⟩ := by
    rw [List.getD_eq_getElem?_getD, List.getElem?_eq_getElem h1]
    rfl
  have e2 : v2.getD n 0 = v2.get ⟨n, h2⟩ := by
    rw [List.getD_eq_getElem?_getD, List.getElem?_eq_getElem h2]
    rfl
  apply Nat.eq_of_testBit_eq
  intro j
  rcases Nat.lt_or_ge j wordDigits with hj | hj
  · have hk := h (n * wordDigits + j)
    unfold testVa at hk
    rw [wd_div _ _ hj, wd_mod _ _ hj, e1, e2] at hk
    exact hk
  · rw [testBit_ge_of_lt (hW1 _ (List.get_mem v1 n h1)) hj,
      testBit_ge_of_lt (hW2 _ (List.get_mem v2 n h2)) hj]

theorem state_eq {w1 w2 : big_whole} (hN : w1.x_.isNone = w2.x_.isNone)
    (hV : valWords w1 = valWords w2) : w1 = w2 := by
  rcases w1 with ⟨x1⟩
  rcases w2 with ⟨x2⟩
  cases x1 with
  | none =>
    cases x2 with
    | none => rfl
    | some v2 => cases hN
  | some v1 =>
    cases x2 with
    | none => cases hN
    | some v2 =>
      have hv : v1 = v2 := hV
      rw [hv]

theorem bit_change_eq_fold (w : big_whole) (a b : Nat) (op : bit_operation)
    (l : List Nat) (hWF : WF w)
    (hl : l.Perm (List.range' (min a b) (max a b + 1 - min a b))) :
    w.bit_change a b op = l.foldl (fun s i => s.bit_change_one i op) w := by
  have hft : min a b ≤ max a b := min_le_max
  have hmem : ∀ i, i ∈ l ↔ (min a b ≤ i ∧ i ≤ max a b) := by
    intro i
    rw [hl.mem_iff, List.mem_range']
    constructor
    · rintro ⟨j, hj, rfl⟩
      omega
    · rintro ⟨h1, h2⟩
      exact ⟨i - min a b, by omega, by omega⟩
  have hnd : l.Nodup := hl.symm.nodup (List.nodup_range' _ _)
  have hne : ¬ (l = []) := by
    intro hc
    have hlen := hl.length_eq
    rw [hc, List.length_nil, List.length_range'] at hlen
    omega
  obtain ⟨fA, fB, fC, fD⟩ := fold_bit_change_one op l hnd w
  have hmax : l.foldl (fun m i => Nat.max m (i / wordDigits + 1)) (valWords w).length
      = Nat.max (valWords w).length ((max a b) / wordDigits + 1) := by
    apply Nat.le_antisymm
    · apply foldl_max_le (fun i => i / wordDigits + 1) l
      · exact Nat.le_max_left _ _
      · intro i hi
        have h2 := ((hmem i).mp hi).2
        have h3 : i / wordDigits ≤ (max a b) / wordDigits := Nat.div_le_div_right h2
        exact Nat.le_trans (by omega) (Nat.le_max_right _ _)
    · apply Nat.max_le.mpr
      constructor
      · exact foldl_max_ge_init (fun i => i / wordDigits + 1) l _
      · exact foldl_max_ge_mem (fun i => i / wordDigits + 1) l _ (max a b)
          ((hmem (max a b)).mpr ⟨hft, Nat.le_refl _⟩)
  apply state_eq
  · rw [bit_change_isNone, fA, decide_eq_false hne, Bool.or_false]
  · apply list_eq_of_testVa
    · rw [bit_change_length, fB, hmax]
    · exact bit_change_WF w a b op hWF
    · exact fD hWF
    · intro k
      rw [bit_change_testVa, fC k]
      by_cases hk : min a b ≤ k ∧ k ≤ max a b
      · rw [if_pos hk, if_pos ((hmem k).mpr hk)]
      · rw [if_neg hk, if_neg (fun hc => hk ((hmem k).mp hc))]

/-- C2: for any starting value, any endpoints in either order and any of the
three operations, the range form of `bit_change` is observably equal (under
`test` at every index, `length` and `count`) to folding the single-bit form
over the indices of the range in any order. -/
theorem claim_C2_range_eq_iterated (w : big_whole) (a b : Nat) (op : bit_operation)
    (l : List Nat) (hWF : WF w)
    (hl : l.Perm (List.range' (min a b) (max a b + 1 - min a b))) :
    (∀ i, (w.bit_change a b op).test i
        = (l.foldl (fun s j => s.bit_change_one j op) w).test i)
    ∧ (w.bit_change a b op).length
        = (l.foldl (fun s j => s.bit_change_one j op) w).length
    ∧ (w.bit_change a b op).count
        = (l.foldl (fun s j => s.bit_change_one j op) w).count := by
  have h := bit_change_eq_fold w a b op l hWF hl
  rw [h]
  exact ⟨fun i => rfl, rfl, rfl⟩

theorem claim_C2_range_eq_iterated_witness :
    (((big_whole.mk (Option.some [5])).bit_change 4 1 bit_operation.flip_bit).test 3
      = (([3, 1, 4, 2].foldl (fun s j => s.bit_change_one j bit_operation.flip_bit)
          (big_whole.mk (Option.some [5])))).test 3)
    ∧ ((big_whole.mk (Option.some [5])).bit_change 4 1 bit_operation.flip_bit).length
        = (([3, 1, 4, 2].foldl (fun s j => s.bit_change_one j bit_operation.flip_bit)
            (big_whole.mk (Option.some [5])))).length
    ∧ ((big_whole.mk (Option.some [5])).bit_change 4 1 bit_operation.flip_bit).count
        = (([3, 1, 4, 2].foldl (fun s j => s.bit_change_one j bit_operation.flip_bit)
            (big_whole.mk (Option.some [5])))).count :=
  ⟨(claim_C2_range_eq_iterated (big_whole.mk (Option.some [5])) 4 1
      bit_operation.flip_bit [3, 1, 4, 2] (by decide) (by decide)).1 3,
   (claim_C2_range_eq_iterated (big_whole.mk (Option.some [5])) 4 1
      bit_operation.flip_bit [3, 1, 4, 2] (by decide) (by decide)).2.1,
   (claim_C2_range_eq_iterated (big_whole.mk (Option.some [5])) 4 1
      bit_operation.flip_bit [3, 1, 4, 2] (by decide) (by decide)).2.2⟩
